import Mathlib

/-!
Verification development for the `hidden-gems` exploration bot
(`src/my-awesome-bot/bot.py`).

The Python program is shallowly embedded: every stateful method of
`HiddenGemsBot` becomes a pure Lean function from a `BotState` (plus the
method's arguments) to a new `BotState` and/or a result.  Python `int`s are
modelled as `Int`, Python floats (only compared and added, never involved in
any rounding-sensitive computation relevant to the claims) as `ℚ`, Python
dicts as insertion-ordered association lists, and Python sets used only for
membership as `Finset`/`List`.  The map is a list of rows exactly as in the
source, and writes to it go through a model of Python list indexing
(negative indices address from the end, other out-of-range indices raise,
modelled by `Option`).
-/

namespace HiddenGems

/-- A grid cell, a pair of Python ints. -/
abbrev Cell := Int × Int

/-- The four cardinal direction keys of the `DIRECTIONS` dict, in the
dict's (insertion) order N, S, E, W. -/
inductive Dir | N | S | E | W
deriving DecidableEq, BEq

/-- `DIRECTIONS` values: N ↦ (0, -1), S ↦ (0, 1), E ↦ (1, 0), W ↦ (-1, 0). -/
def Dir.delta : Dir → Cell
  | .N => (0, -1)
  | .S => (0, 1)
  | .E => (1, 0)
  | .W => (-1, 0)

/-- Iteration order of the `DIRECTIONS` dict. -/
def dirList : List Dir := [.N, .S, .E, .W]

/-- Move one step from a cell in a direction. -/
def stepCell (c : Cell) (d : Dir) : Cell := (c.1 + d.delta.1, c.2 + d.delta.2)

/-- The value a call of `decide_move` returns: one of the four direction
keys, or the string "WAIT". -/
inductive Move | N | S | E | W | WAIT
deriving DecidableEq, BEq

/-- The move token corresponding to a direction key. -/
def Dir.toMove : Dir → Move
  | .N => .N
  | .S => .S
  | .E => .E
  | .W => .W

/-- Values of the `MapCell` enumeration: UNKNOWN = 0, WALL = 1, FLOOR = 2. -/
inductive MapCell | unknown | wall | floor
deriving DecidableEq, BEq

/-- A `GemTracker` record (minus the redundant `pos` field, which duplicates
the dict key and is never read). -/
structure Gem where
  ttl : Option Int
  confidence : ℚ
  last_seen : Int
  estimated : Bool
deriving DecidableEq

/-- `GemTracker.__init__`: `last_seen` starts at 0 and
`estimated = (ttl is None)`. -/
def mkGemTracker (ttl : Option Int) (confidence : ℚ) : Gem :=
  { ttl := ttl, confidence := confidence, last_seen := 0, estimated := ttl.isNone }

/-- The mutable state of a `HiddenGemsBot` instance.  `gems` is an
insertion-ordered association list (a Python dict), `collected_gems` a set,
`frontier` the set of frontier cells listed in the construction order of
`_update_frontier` (only membership is ever used). -/
structure BotState where
  width : Nat
  height : Nat
  signal_radius : ℚ
  vis_radius : ℚ
  map : List (List MapCell)
  x : Int
  y : Int
  tick : Int
  gems : List (Cell × Gem)
  collected_gems : Finset Cell
  frontier : List Cell
  position_history : List Cell
  last_real_gem_tick : Int
  signal_gradient_memory : List (Cell × ℚ)
deriving DecidableEq

/-- Reading `self.map[x][y]` for coordinates already known to be in bounds
(every read in the source is guarded by a bounds check or a range loop). -/
def cellAt (s : BotState) (x y : Int) : MapCell :=
  (((s.map.get? x.toNat).getD []).get? y.toNat).getD .unknown

/-- `is_walkable`: in bounds and not a wall. -/
def isWalkable (s : BotState) (x y : Int) : Bool :=
  decide (0 ≤ x) && decide (x < (s.width : Int)) &&
  decide (0 ≤ y) && decide (y < (s.height : Int)) &&
  (cellAt s x y != .wall)

/-- The grid cells in the iteration order of the loops of
`_update_frontier` (`x` outer, `y` inner). -/
def gridCells (w h : Nat) : List Cell :=
  (List.range w).flatMap (fun x => (List.range h).map (fun y => ((x : Int), (y : Int))))

/-- Whether a cell is in bounds, as checked inside `_update_frontier`. -/
def inBoundsB (s : BotState) (x y : Int) : Bool :=
  decide (0 ≤ x) && decide (x < (s.width : Int)) &&
  decide (0 ≤ y) && decide (y < (s.height : Int))

/-- The frontier test of `_update_frontier`: a FLOOR cell one of whose four
neighbors is in bounds and UNKNOWN. -/
def isFrontierCell (s : BotState) (c : Cell) : Bool :=
  (cellAt s c.1 c.2 == .floor) &&
  dirList.any (fun d =>
    let n := stepCell c d
    inBoundsB s n.1 n.2 && (cellAt s n.1 n.2 == .unknown))

/-- `_update_frontier`: recompute the frontier from the map. -/
def computeFrontier (s : BotState) : List Cell :=
  (gridCells s.width s.height).filter (isFrontierCell s)

/-- Python list index resolution: `0 ≤ i < n` addresses `i`, `-n ≤ i < 0`
addresses `n + i`, anything else raises `IndexError`. -/
def pyIdx (n : Nat) (i : Int) : Option Nat :=
  if 0 ≤ i ∧ i < (n : Int) then some i.toNat
  else if -(n : Int) ≤ i ∧ i < 0 then some (i + n).toNat
  else none

/-- `self.map[c0][c1] = v` with Python indexing; `none` models the raised
`IndexError` (first failing index aborts). -/
def pySetCell (m : List (List MapCell)) (c : Cell) (v : MapCell) :
    Option (List (List MapCell)) :=
  match pyIdx m.length c.1 with
  | none => none
  | some ix =>
    match m.get? ix with
    | none => none
    | some row =>
      match pyIdx row.length c.2 with
      | none => none
      | some iy => some (m.set ix (row.set iy v))

/-- The two assignment loops of `update_map`: walls first, then floors. -/
def updateMapGrid (m : List (List MapCell)) (walls floors : List Cell) :
    Option (List (List MapCell)) := do
  let m1 ← walls.foldlM (fun mm c => pySetCell mm c .wall) m
  floors.foldlM (fun mm c => pySetCell mm c .floor) m1

/-- `update_map`: write walls, then floors, then recompute the frontier.
`none` models a raised `IndexError` (caught in `main`, which emits WAIT). -/
def updateMap (s : BotState) (walls floors : List Cell) : Option BotState :=
  (updateMapGrid s.map walls floors).map fun m =>
    let s1 : BotState := { s with map := m }
    { s1 with frontier := computeFrontier s1 }

/-- `initialize_map`: a `width`-long list of `height`-long all-UNKNOWN rows. -/
def initializeMapGrid (w h : Nat) : List (List MapCell) :=
  List.replicate w (List.replicate h .unknown)

/-- `HiddenGemsBot.__init__` followed by the first-tick configuration and
`initialize_map` in `main`. -/
def initState (w h : Nat) (sigR visR : ℚ) : BotState :=
  { width := w, height := h, signal_radius := sigR, vis_radius := visR,
    map := initializeMapGrid w h, x := 0, y := 0, tick := 0,
    gems := [], collected_gems := ∅, frontier := [],
    position_history := [], last_real_gem_tick := 0,
    signal_gradient_memory := [] }

/-- Manhattan distance `abs(ax - bx) + abs(ay - by)`. -/
def manhattan (a b : Cell) : Nat := (a.1 - b.1).natAbs + (a.2 - b.2).natAbs

/-- Dict lookup `self.gems[pos]` / membership `pos in self.gems` on the
association list. -/
def lookupGem (gs : List (Cell × Gem)) (p : Cell) : Option Gem :=
  (gs.find? (fun e => e.1 == p)).map Prod.snd

/-- The body of the sighting loop of `update_gems` for one visible gem:
refresh the existing record in place, or append a fresh confirmed record
(created with `last_seen = 0` by the constructor and immediately stamped
with the current tick, as in the source). -/
def seeGem (tick : Int) (gs : List (Cell × Gem)) (pos : Cell) (ttl : Int) :
    List (Cell × Gem) :=
  if (lookupGem gs pos).isSome then
    gs.map (fun e =>
      if e.1 = pos then
        (e.1, { e.2 with ttl := some ttl, last_seen := tick,
                         confidence := 1, estimated := false })
      else e)
  else gs ++ [(pos, { mkGemTracker (some ttl) 1 with last_seen := tick })]

/-- The removal condition of the second loop of `update_gems`: a confirmed
record, not visible this tick, whose `last_seen < tick - 1`. -/
def staleB (tick : Int) (visPos : List Cell) (e : Cell × Gem) : Bool :=
  !e.2.estimated && !(decide (e.1 ∈ visPos)) && decide (e.2.last_seen < tick - 1)

/-- The keys the second loop of `update_gems` moves to `collected_gems`. -/
def staleKeys (tick : Int) (gs : List (Cell × Gem)) (visPos : List Cell) :
    List Cell :=
  (gs.filter (staleB tick visPos)).map Prod.fst

/-- The sighting loop of `update_gems`: upsert every visible gem,
resetting `last_real_gem_tick` on each. -/
def gemSightings (s : BotState) (vis : List (Cell × Int)) : BotState :=
  vis.foldl (fun st v =>
    { st with last_real_gem_tick := st.tick,
              gems := seeGem st.tick st.gems v.1 v.2 }) s

/-- `update_gems(visible_gems)`: upsert every sighting, then collect and
drop stale confirmed records. -/
def updateGems (s : BotState) (vis : List (Cell × Int)) : BotState :=
  let s1 := gemSightings s vis
  let visPos := vis.map Prod.fst
  { s1 with
    gems := s1.gems.filter (fun e => !staleB s1.tick visPos e),
    collected_gems :=
      s1.collected_gems ∪ (staleKeys s1.tick s1.gems visPos).toFinset }

/-- A BFS queue entry: the dequeued cell together with the move sequence
that led to it. -/
abbrev Entry := Cell × List Dir

/-- Path length of a queue entry. -/
def entLen (e : Entry) : Nat := e.2.length

/-- The cells of the queue entries. -/
def qCells (q : List Entry) : List Cell := q.map Prod.fst

/-- One direction of the neighbor loop inside `bfs`: enqueue and mark
visited any unvisited walkable neighbor. -/
def expandDir (s : BotState) (c : Cell) (p : List Dir)
    (acc : List Entry × List Cell) (d : Dir) : List Entry × List Cell :=
  let n := stepCell c d
  if n ∉ acc.2 ∧ isWalkable s n.1 n.2 then
    (acc.1 ++ [(n, p ++ [d])], acc.2 ++ [n])
  else acc

/-- The `while queue` loop of `bfs`, with explicit fuel.  Each iteration
pops the front entry, returns its path if its cell is a target, and
otherwise expands its neighbors in N, S, E, W order.  The fuel used by
`bfs` below is large enough that the 0 case is never reached. -/
def bfsAux (s : BotState) (targets : List Cell) :
    Nat → List Entry → List Cell → List Dir
  | 0, _, _ => []
  | _ + 1, [], _ => []
  | fuel + 1, (c, p) :: rest, visited =>
    if c ∈ targets then p
    else
      let qv := dirList.foldl (expandDir s c p) (rest, visited)
      bfsAux s targets fuel qv.1 qv.2

/-- `bfs(start, targets)`: empty result for an empty target set, else the
queue loop starting from `start` with `start` pre-visited. -/
def bfs (s : BotState) (start : Cell) (targets : List Cell) : List Dir :=
  if targets = [] then []
  else bfsAux s targets (s.width * s.height + 2) [(start, [])] [start]

/-- `find_path_to_frontier`. -/
def findPathToFrontier (s : BotState) : List Dir :=
  bfs s (s.x, s.y) s.frontier

/-- `in_signal_hunt_mode`: 150 ticks without a confirmed sighting. -/
def inSignalHuntMode (s : BotState) : Bool :=
  decide (150 ≤ s.tick - s.last_real_gem_tick)

/-- `score_move_signal_only`. -/
def scoreMoveSignalOnly (s : BotState) (d : Dir) (sig : ℚ) : ℚ :=
  let n := stepCell (s.x, s.y) d
  (if cellAt s n.1 n.2 = .unknown then 1.5 else 0)
  + (if s.position_history.getLast? = some n then -2 else 0)
  + s.signal_gradient_memory.foldl
      (fun acc e => if e.1 = n then acc + (sig - e.2) * 20 else acc) 0

/-- `score_move` (its `signal_level` argument is accepted and ignored,
exactly as in the source). -/
def scoreMove (s : BotState) (d : Dir) (_sig : ℚ) : ℚ :=
  let n := stepCell (s.x, s.y) d
  s.gems.foldl
    (fun acc e =>
      if !e.2.estimated || decide ((1 : ℚ)/2 < e.2.confidence) then
        if manhattan e.1 n < manhattan e.1 (s.x, s.y) then
          acc + (if !e.2.estimated then 12 else e.2.confidence * 6)
        else acc
      else acc) 0
  + (if cellAt s n.1 n.2 = .unknown then 3 else 0)
  + (if n ∈ s.frontier then 1.5 else 0)
  + (if s.position_history.getLast? = some n then -2 else 0)

/-- Append to a history buffer and evict the oldest entry past the cap
(`append` then `if len > cap: pop(0)`). -/
def pushBounded (l : List α) (a : α) (cap : Nat) : List α :=
  let l2 := l ++ [a]
  if cap < l2.length then l2.drop 1 else l2

/-- The two buffer updates at the top of `decide_move`. -/
def histUpd (s : BotState) (sig : ℚ) : BotState :=
  { s with
    position_history := pushBounded s.position_history (s.x, s.y) 30,
    signal_gradient_memory :=
      pushBounded s.signal_gradient_memory ((s.x, s.y), sig) 20 }

/-- The direction key whose delta equals the given vector, looked up in
`DIRECTIONS` order. -/
def dirTo (v : Cell) : Option Dir := dirList.find? (fun d => d.delta == v)

/-- The immediate-visible-gem scan of `decide_move`: the first confirmed
gem at Manhattan distance 1, turned into the direction stepping onto it. -/
def adjacentGemMove (s : BotState) : Option Dir :=
  s.gems.findSome? (fun e =>
    if ¬e.2.estimated ∧ manhattan e.1 (s.x, s.y) = 1 then
      dirTo (e.1.1 - s.x, e.1.2 - s.y)
    else none)

/-- The walkable direction keys from the agent's cell, in `DIRECTIONS`
order. -/
def walkMoves (s : BotState) : List Dir :=
  dirList.filter (fun d => isWalkable s (s.x + d.delta.1) (s.y + d.delta.2))

/-- Python `max(a :: rest, key)`: the first element attaining the maximal
key (`max` keeps the incumbent unless a strictly greater key appears). -/
def pyMax1 (key : α → ℚ) (a : α) (rest : List α) : α :=
  rest.foldl (fun best m => if key best < key m then m else best) a

/-- The lexicographic order `sorted` uses on coordinate tuples. -/
def cellLe (a b : Cell) : Prop := a.1 < b.1 ∨ (a.1 = b.1 ∧ a.2 ≤ b.2)

instance : DecidableRel cellLe := fun a b =>
  inferInstanceAs (Decidable (a.1 < b.1 ∨ (a.1 = b.1 ∧ a.2 ≤ b.2)))

/-- `sorted(self.gems.keys())`. -/
def sortedGemKeys (s : BotState) : List Cell :=
  (s.gems.map Prod.fst).insertionSort cellLe

/-- One step of the normal-gem-targeting loop of `decide_move`: a tracked
confirmed gem with a non-empty BFS path yields the path's first move. -/
def gemTargetProbe (s : BotState) (p : Cell) : Option Dir :=
  match lookupGem s.gems p with
  | some g =>
    if ¬g.estimated then
      match bfs s (s.x, s.y) [p] with
      | d :: _ => some d
      | [] => none
    else none
  | none => none

/-- The normal-gem-targeting loop of `decide_move`: walk the sorted keys,
and for the first confirmed gem with a non-empty BFS path return the
path's first move. -/
def gemTargetMove (s : BotState) : Option Dir :=
  (sortedGemKeys s).findSome? (gemTargetProbe s)

/-- `decide_move(signal_level)`: history updates, then the cascade
(adjacent confirmed gem, signal-hunt scoring, sorted gem targeting,
frontier path, fallback scoring, WAIT). -/
def decideMove (s : BotState) (sig : ℚ) : Move × BotState :=
  let s1 := histUpd s sig
  match adjacentGemMove s1 with
  | some d => (d.toMove, s1)
  | none =>
    let hunted : Option Dir :=
      if inSignalHuntMode s1 then
        match walkMoves s1 with
        | [] => none
        | m :: ms => some (pyMax1 (fun d => scoreMoveSignalOnly s1 d sig) m ms)
      else none
    match hunted with
    | some d => (d.toMove, s1)
    | none =>
      match gemTargetMove s1 with
      | some d => (d.toMove, s1)
      | none =>
        match findPathToFrontier s1 with
        | d :: _ => (d.toMove, s1)
        | [] =>
          match walkMoves s1 with
          | [] => (.WAIT, s1)
          | m :: ms => ((pyMax1 (fun d => scoreMove s1 d sig) m ms).toMove, s1)

/-- A per-tick observation, after the JSON parsing done by the excluded
I/O boundary. -/
structure Obs where
  tick : Int
  bot : Cell
  wall : List Cell
  floor : List Cell
  visible_gems : List (Cell × Int)
  signal_level : ℚ

/-- `process_tick`: stamp tick and position, update the map (possibly
raising, modelled by `none`), update gems, decide.  Returns the move and
the post-tick state. -/
def processTick (s : BotState) (o : Obs) : Option (Move × BotState) := do
  let s0 := { s with tick := o.tick, x := o.bot.1, y := o.bot.2 }
  let s1 ← updateMap s0 o.wall o.floor
  let s2 := updateGems s1 o.visible_gems
  some (decideMove s2 o.signal_level)

/-!
## Paths and reachability

A move sequence applied to a cell; a move sequence all of whose stepped-on
cells (the start excluded, matching `bfs`, which never checks the start)
are walkable.
-/

/-- Apply a move sequence to a cell. -/
def applyMoves (c : Cell) : List Dir → Cell
  | [] => c
  | d :: p => applyMoves (stepCell c d) p

/-- Every cell stepped on along the sequence is walkable. -/
def pathWalkableB (s : BotState) (c : Cell) : List Dir → Bool
  | [] => true
  | d :: p =>
    isWalkable s (stepCell c d).1 (stepCell c d).2 && pathWalkableB s (stepCell c d) p

/-- `p` is a walkable move sequence leading from `a` to `b`. -/
def ValidPath (s : BotState) (a : Cell) (p : List Dir) (b : Cell) : Prop :=
  pathWalkableB s a p = true ∧ applyMoves a p = b

instance (s : BotState) (a : Cell) (p : List Dir) (b : Cell) :
    Decidable (ValidPath s a p b) :=
  inferInstanceAs (Decidable (pathWalkableB s a p = true ∧ applyMoves a p = b))

theorem applyMoves_append (c : Cell) (p q : List Dir) :
    applyMoves c (p ++ q) = applyMoves (applyMoves c p) q := by
  induction p generalizing c with
  | nil => rfl
  | cons d p ih => simp [applyMoves, ih]

theorem pathWalkableB_append (s : BotState) (c : Cell) (p q : List Dir) :
    pathWalkableB s c (p ++ q)
      = (pathWalkableB s c p && pathWalkableB s (applyMoves c p) q) := by
  induction p generalizing c with
  | nil => simp [pathWalkableB, applyMoves]
  | cons d p ih => simp [pathWalkableB, applyMoves, ih, Bool.and_assoc]

theorem ValidPath.nil (s : BotState) (a : Cell) : ValidPath s a [] a :=
  ⟨rfl, rfl⟩

theorem ValidPath.snoc {s : BotState} {a b : Cell} {p : List Dir} {d : Dir}
    (h : ValidPath s a p b)
    (hw : isWalkable s (stepCell b d).1 (stepCell b d).2 = true) :
    ValidPath s a (p ++ [d]) (stepCell b d) := by
  obtain ⟨h1, h2⟩ := h
  refine ⟨?_, ?_⟩
  · rw [pathWalkableB_append, h1, h2]
    simp [pathWalkableB, hw]
  · rw [applyMoves_append, h2]
    rfl

theorem ValidPath.endpoint_walkable {s : BotState} {a b : Cell} {p : List Dir}
    (h : ValidPath s a p b) (hne : p ≠ []) : isWalkable s b.1 b.2 = true := by
  induction p generalizing a with
  | nil => exact absurd rfl hne
  | cons d p ih =>
    obtain ⟨h1, h2⟩ := h
    simp only [pathWalkableB, Bool.and_eq_true] at h1
    rcases p with _ | ⟨d2, p2⟩
    · cases h2; exact h1.1
    · exact ih ⟨h1.2, h2⟩ (by simp)

/-!
## BFS correctness

Classical queue-invariant proof: every queued entry carries a shortest
walkable path to its cell; finished (visited, dequeued) cells have all
their walkable neighbors visited; queued path lengths are nondecreasing
and spread by at most one.
-/

theorem dir_mem_dirList (d : Dir) : d ∈ dirList := by
  cases d <;> simp [dirList]

/-- What one pass of the neighbor loop produces: the new queue entries and
visited cells, in order, with their provenance. -/
theorem expand_spec (s : BotState) (c : Cell) (p : List Dir) :
    ∀ (ds : List Dir) (q0 : List Entry) (v0 : List Cell),
    ∃ ext : List (Cell × Dir),
      (ds.foldl (expandDir s c p) (q0, v0)).2 = v0 ++ ext.map Prod.fst ∧
      (ds.foldl (expandDir s c p) (q0, v0)).1
        = q0 ++ ext.map (fun nd => (nd.1, p ++ [nd.2])) ∧
      (∀ nd ∈ ext, nd.1 = stepCell c nd.2 ∧
        isWalkable s nd.1.1 nd.1.2 = true ∧ nd.1 ∉ v0) ∧
      (v0.Nodup → (v0 ++ ext.map Prod.fst).Nodup) ∧
      (∀ d ∈ ds, isWalkable s (stepCell c d).1 (stepCell c d).2 = true →
        stepCell c d ∈ (ds.foldl (expandDir s c p) (q0, v0)).2) := by
  intro ds
  induction ds with
  | nil =>
    intro q0 v0
    exact ⟨[], by simp, by simp, by simp, by simp, by simp⟩
  | cons d ds ih =>
    intro q0 v0
    rw [List.foldl_cons]
    by_cases h : stepCell c d ∉ v0 ∧ isWalkable s (stepCell c d).1 (stepCell c d).2 = true
    · have hstep : expandDir s c p (q0, v0) d
          = (q0 ++ [(stepCell c d, p ++ [d])], v0 ++ [stepCell c d]) := by
        simp only [expandDir, if_pos h]
      rw [hstep]
      obtain ⟨ext, h1, h2, h3, h4, h5⟩ :=
        ih (q0 ++ [(stepCell c d, p ++ [d])]) (v0 ++ [stepCell c d])
      refine ⟨(stepCell c d, d) :: ext, ?_, ?_, ?_, ?_, ?_⟩
      · rw [h1]; simp
      · rw [h2]; simp
      · intro nd hnd
        rcases List.mem_cons.mp hnd with rfl | hnd
        · exact ⟨rfl, h.2, h.1⟩
        · obtain ⟨ha, hb, hc⟩ := h3 nd hnd
          refine ⟨ha, hb, fun hmem => hc (by simp [hmem])⟩
      · intro hnod
        have : (v0 ++ [stepCell c d]).Nodup := by
          simp [List.nodup_append, hnod, h.1]
        have := h4 this
        simpa [List.append_assoc] using this
      · intro d0 hd0 hw
        rcases List.mem_cons.mp hd0 with rfl | hd0
        · have : stepCell c d0 ∈ v0 ++ [stepCell c d0] := by simp
          rw [h1]
          exact List.mem_append_left _ this
        · exact h5 d0 hd0 hw
    · have hstep : expandDir s c p (q0, v0) d = (q0, v0) := by
        simp only [expandDir, if_neg h]
      rw [hstep]
      obtain ⟨ext, h1, h2, h3, h4, h5⟩ := ih q0 v0
      refine ⟨ext, h1, h2, h3, h4, ?_⟩
      intro d0 hd0 hw
      rcases List.mem_cons.mp hd0 with rfl | hd0
      · have hin : stepCell c d0 ∈ v0 := by
          by_contra hnot
          exact h ⟨hnot, hw⟩
        rw [h1]
        exact List.mem_append_left _ hin
      · exact h5 d0 hd0 hw

/-- The queue/visited invariant of the `bfs` loop. -/
structure BfsInv (s : BotState) (start : Cell) (targets : List Cell)
    (q : List Entry) (v : List Cell) : Prop where
  validQ : ∀ e ∈ q, ValidPath s start e.2 e.1
  subV : ∀ e ∈ q, e.1 ∈ v
  startV : start ∈ v
  nodupV : v.Nodup
  nodupQ : (qCells q).Nodup
  sortedQ : (q.map entLen).Pairwise (· ≤ ·)
  spreadQ : ∀ a ∈ q, ∀ b ∈ q, entLen a ≤ entLen b + 1
  optQ : ∀ e ∈ q, ∀ pa, ValidPath s start pa e.1 → entLen e ≤ pa.length
  closedV : ∀ c ∈ v, c ∉ qCells q →
    ∀ d : Dir, isWalkable s (stepCell c d).1 (stepCell c d).2 = true →
      stepCell c d ∈ v
  targOpen : ∀ t ∈ targets, t ∈ v → t ∈ qCells q
  vWalk : ∀ c ∈ v, c ≠ start → isWalkable s c.1 c.2 = true

/-- Any walkable path from `start` that leaves the visited set passes
through a queued cell after a prefix at least as long as the stored
queued path. -/
theorem bfs_cover {s : BotState} {start : Cell} {targets : List Cell}
    {q : List Entry} {v : List Cell} (inv : BfsInv s start targets q v) :
    ∀ pa c, ValidPath s start pa c → c ∉ v →
    ∃ e ∈ q, ∃ p1 p2, pa = p1 ++ p2 ∧ p2 ≠ [] ∧
      ValidPath s start p1 e.1 ∧ entLen e ≤ p1.length := by
  intro pa
  induction pa using List.reverseRecOn with
  | nil =>
    intro c hv hcv
    obtain ⟨-, h2⟩ := hv
    cases h2
    exact absurd inv.startV hcv
  | append_singleton pa' d ih =>
    intro c hv hcv
    obtain ⟨hw, he⟩ := hv
    rw [pathWalkableB_append] at hw
    simp only [Bool.and_eq_true] at hw
    rw [applyMoves_append] at he
    simp only [applyMoves] at he
    have hw1 : pathWalkableB s start pa' = true := hw.1
    have hw2 : isWalkable s (stepCell (applyMoves start pa') d).1
        (stepCell (applyMoves start pa') d).2 = true := by
      have := hw.2
      simp only [pathWalkableB, Bool.and_eq_true] at this
      exact this.1
    by_cases hb : applyMoves start pa' ∈ v
    · by_cases hbq : applyMoves start pa' ∈ qCells q
      · obtain ⟨e, heq, hfst⟩ := List.mem_map.mp hbq
        refine ⟨e, heq, pa', [d], rfl, by simp, ⟨hw1, hfst.symm⟩, ?_⟩
        exact inv.optQ e heq pa' ⟨hw1, hfst.symm⟩
      · exfalso
        exact hcv (he ▸ inv.closedV _ hb hbq d hw2)
    · obtain ⟨e, heq, p1, p2, hsplit, hp2, hgood, hlen⟩ :=
        ih (applyMoves start pa') ⟨hw1, rfl⟩ hb
      refine ⟨e, heq, p1, p2 ++ [d], ?_, by simp, hgood, hlen⟩
      rw [hsplit, List.append_assoc]

theorem pairwise_le_of_const {l : List Nat} {k : Nat} (h : ∀ x ∈ l, x = k) :
    l.Pairwise (· ≤ ·) := by
  induction l with
  | nil => exact List.Pairwise.nil
  | cons a t ih =>
    refine List.Pairwise.cons ?_ (ih fun x hx => h x (List.mem_cons_of_mem _ hx))
    intro b hb
    rw [h a (List.mem_cons_self _ _), h b (List.mem_cons_of_mem _ hb)]

/-- One non-returning loop iteration of `bfs` preserves the invariant, and
trades queue length against visited length one for one. -/
theorem bfs_step {s : BotState} {start : Cell} {targets : List Cell}
    {c : Cell} {p : List Dir} {rest : List Entry} {v : List Cell}
    (inv : BfsInv s start targets ((c, p) :: rest) v) (hc : c ∉ targets) :
    BfsInv s start targets
      (dirList.foldl (expandDir s c p) (rest, v)).1
      (dirList.foldl (expandDir s c p) (rest, v)).2 ∧
    (dirList.foldl (expandDir s c p) (rest, v)).1.length + v.length
      = rest.length + (dirList.foldl (expandDir s c p) (rest, v)).2.length := by
  obtain ⟨ext, hv, hq, hprops, hnodup, hcompl⟩ := expand_spec s c p dirList rest v
  have hvalid_c : ValidPath s start p c := inv.validQ (c, p) (List.mem_cons_self _ _)
  have hsorted := inv.sortedQ
  rw [List.map_cons] at hsorted
  obtain ⟨hmin', htail⟩ := List.pairwise_cons.mp hsorted
  have hminAll : ∀ e ∈ (c, p) :: rest, p.length ≤ entLen e := by
    intro e he
    rcases List.mem_cons.mp he with rfl | he
    · exact le_rfl
    · exact hmin' _ (List.mem_map_of_mem entLen he)
  have hnodV : ((dirList.foldl (expandDir s c p) (rest, v)).2).Nodup :=
    hv ▸ hnodup inv.nodupV
  have optNew : ∀ nd ∈ ext, ∀ pa, ValidPath s start pa nd.1 →
      p.length + 1 ≤ pa.length := by
    intro nd hnd pa hpa
    obtain ⟨e0, he0, p1, p2, hsplit, hp2, hval1, hlen1⟩ :=
      bfs_cover inv pa nd.1 hpa (hprops nd hnd).2.2
    have h2 : p.length ≤ entLen e0 := hminAll e0 he0
    have h3 : pa.length = p1.length + p2.length := by
      rw [hsplit, List.length_append]
    have h4 : 0 < p2.length := List.length_pos.mpr hp2
    omega
  rw [hq, hv]
  constructor
  · refine ⟨?_, ?_, ?_, ?_, ?_, ?_, ?_, ?_, ?_, ?_, ?_⟩
    · -- validQ
      intro e he
      rcases List.mem_append.mp he with he | he
      · exact inv.validQ e (List.mem_cons_of_mem _ he)
      · obtain ⟨nd, hnd, rfl⟩ := List.mem_map.mp he
        obtain ⟨hstep, hwalk, -⟩ := hprops nd hnd
        show ValidPath s start (p ++ [nd.2]) nd.1
        rw [hstep] at hwalk ⊢
        exact ValidPath.snoc hvalid_c hwalk
    · -- subV
      intro e he
      rcases List.mem_append.mp he with he | he
      · exact List.mem_append_left _ (inv.subV e (List.mem_cons_of_mem _ he))
      · obtain ⟨nd, hnd, rfl⟩ := List.mem_map.mp he
        exact List.mem_append_right _ (List.mem_map_of_mem Prod.fst hnd)
    · exact List.mem_append_left _ inv.startV
    · exact hnodup inv.nodupV
    · -- nodupQ
      have hmapmap : List.map Prod.fst
          (List.map (fun nd : Cell × Dir => (nd.1, p ++ [nd.2])) ext)
            = ext.map Prod.fst := by
        induction ext with
        | nil => rfl
        | cons a t ih => simp_all
      show (List.map Prod.fst (rest ++ _)).Nodup
      rw [List.map_append, hmapmap]
      have hrestN : (qCells rest).Nodup := by
        have := inv.nodupQ
        rw [qCells, List.map_cons] at this
        exact this.of_cons
      have hvext := hnodup inv.nodupV
      obtain ⟨-, hextN, hdisj⟩ := List.nodup_append.mp hvext
      refine List.nodup_append.mpr ⟨hrestN, hextN, ?_⟩
      intro a ha
      obtain ⟨e, he, rfl⟩ := List.mem_map.mp ha
      exact hdisj (inv.subV e (List.mem_cons_of_mem _ he))
    · -- sortedQ
      rw [List.map_append]
      refine List.pairwise_append.mpr ⟨htail, ?_, ?_⟩
      · have hconst : ∀ x ∈ List.map entLen
            (List.map (fun nd : Cell × Dir => (nd.1, p ++ [nd.2])) ext),
            x = p.length + 1 := by
          intro x hx
          obtain ⟨e, he, rfl⟩ := List.mem_map.mp hx
          obtain ⟨nd, hnd, rfl⟩ := List.mem_map.mp he
          simp [entLen]
        exact pairwise_le_of_const hconst
      · intro a ha b hb
        obtain ⟨e, he, rfl⟩ := List.mem_map.mp ha
        obtain ⟨e2, he2, rfl⟩ := List.mem_map.mp hb
        obtain ⟨nd, hnd, rfl⟩ := List.mem_map.mp he2
        have h1 : entLen e ≤ p.length + 1 :=
          inv.spreadQ e (List.mem_cons_of_mem _ he) (c, p) (List.mem_cons_self _ _)
        simpa [entLen] using h1
    · -- spreadQ
      have bound : ∀ x ∈ rest ++ ext.map (fun nd : Cell × Dir => (nd.1, p ++ [nd.2])),
          p.length ≤ entLen x ∧ entLen x ≤ p.length + 1 := by
        intro x hx
        rcases List.mem_append.mp hx with hx | hx
        · exact ⟨hminAll x (List.mem_cons_of_mem _ hx),
            inv.spreadQ x (List.mem_cons_of_mem _ hx) (c, p) (List.mem_cons_self _ _)⟩
        · obtain ⟨nd, hnd, rfl⟩ := List.mem_map.mp hx
          simp [entLen]
      intro a ha b hb
      have h1 := bound a ha
      have h2 := bound b hb
      omega
    · -- optQ
      intro e he pa hpa
      rcases List.mem_append.mp he with he | he
      · exact inv.optQ e (List.mem_cons_of_mem _ he) pa hpa
      · obtain ⟨nd, hnd, rfl⟩ := List.mem_map.mp he
        have := optNew nd hnd pa hpa
        simpa [entLen] using this
    · -- closedV
      intro c' hc' hq' d hw
      rcases List.mem_append.mp hc' with hc' | hc'
      · by_cases hcc : c' = c
        · subst hcc
          have := hcompl d (dir_mem_dirList d) hw
          rwa [hv] at this
        · have hnotrest : c' ∉ qCells rest := by
            intro hmem
            apply hq'
            show c' ∈ List.map Prod.fst (rest ++ _)
            rw [List.map_append]
            exact List.mem_append_left _ hmem
          have hnotold : c' ∉ qCells ((c, p) :: rest) := by
            rw [qCells, List.map_cons]
            intro hmem
            rcases List.mem_cons.mp hmem with h | h
            · exact hcc h
            · exact hnotrest h
          exact List.mem_append_left _ (inv.closedV c' hc' hnotold d hw)
      · exfalso
        apply hq'
        show c' ∈ List.map Prod.fst (rest ++ _)
        rw [List.map_append]
        refine List.mem_append_right _ ?_
        obtain ⟨nd, hnd, rfl⟩ := List.mem_map.mp hc'
        exact List.mem_map_of_mem _ (List.mem_map_of_mem _ hnd)
    · -- targOpen
      intro t ht htv
      show t ∈ List.map Prod.fst (rest ++ _)
      rw [List.map_append]
      rcases List.mem_append.mp htv with htv | htv
      · have := inv.targOpen t ht htv
        rw [qCells, List.map_cons] at this
        rcases List.mem_cons.mp this with h | h
        · rw [h] at ht
          exact absurd ht hc
        · exact List.mem_append_left _ h
      · refine List.mem_append_right _ ?_
        obtain ⟨nd, hnd, rfl⟩ := List.mem_map.mp htv
        exact List.mem_map_of_mem _ (List.mem_map_of_mem _ hnd)
    · -- vWalk
      intro c' hc' hne
      rcases List.mem_append.mp hc' with hc' | hc'
      · exact inv.vWalk c' hc' hne
      · obtain ⟨nd, hnd, rfl⟩ := List.mem_map.mp hc'
        exact (hprops nd hnd).2.1
  · simp only [List.length_append, List.length_map]
    omega

/-- The walkable cells (plus possibly the start), as a finite grid. -/
def gridFinset (w h : Nat) : Finset Cell :=
  (Finset.range w ×ˢ Finset.range h).image (fun ab => ((ab.1 : Int), (ab.2 : Int)))

theorem card_gridFinset_le (w h : Nat) : (gridFinset w h).card ≤ w * h := by
  refine le_trans Finset.card_image_le ?_
  simp [Finset.card_product]

theorem walkable_mem_grid {s : BotState} {c : Cell}
    (h : isWalkable s c.1 c.2 = true) : c ∈ gridFinset s.width s.height := by
  simp only [isWalkable, Bool.and_eq_true, decide_eq_true_eq] at h
  obtain ⟨⟨⟨⟨h1, h2⟩, h3⟩, h4⟩, -⟩ := h
  refine Finset.mem_image.mpr ⟨(c.1.toNat, c.2.toNat), ?_, ?_⟩
  · rw [Finset.mem_product]
    constructor <;> (rw [Finset.mem_range]; omega)
  · obtain ⟨x, y⟩ := c
    simp only at h1 h2 h3 h4 ⊢
    rw [Prod.mk.injEq]
    omega

theorem length_le_card_of_nodup {α : Type} [DecidableEq α] {l : List α}
    {S : Finset α} (hn : l.Nodup) (hs : ∀ a ∈ l, a ∈ S) : l.length ≤ S.card := by
  rw [← List.toFinset_card_of_nodup hn]
  exact Finset.card_le_card (fun x hx => hs x (List.mem_toFinset.mp hx))

/-- The visited list cannot outgrow the grid (plus the start cell). -/
theorem bfs_vlen {s : BotState} {start : Cell} {targets : List Cell}
    {q : List Entry} {v : List Cell} (inv : BfsInv s start targets q v) :
    v.length ≤ s.width * s.height + 1 := by
  have hsub : ∀ c ∈ v, c ∈ insert start (gridFinset s.width s.height) := by
    intro c hcv
    by_cases hcs : c = start
    · simp [hcs]
    · exact Finset.mem_insert_of_mem (walkable_mem_grid (inv.vWalk c hcv hcs))
  have h1 := length_le_card_of_nodup inv.nodupV hsub
  have h2 := Finset.card_insert_le start (gridFinset s.width s.height)
  have h3 := card_gridFinset_le s.width s.height
  omega

/-- The invariant holds at loop entry. -/
theorem bfs_init_inv (s : BotState) (start : Cell) (targets : List Cell) :
    BfsInv s start targets [(start, [])] [start] := by
  refine ⟨?_, ?_, ?_, ?_, ?_, ?_, ?_, ?_, ?_, ?_, ?_⟩
  · intro e he
    simp only [List.mem_singleton] at he
    subst he
    exact ValidPath.nil s start
  · intro e he
    simp only [List.mem_singleton] at he
    subst he
    simp
  · simp
  · simp
  · simp [qCells]
  · simp
  · intro a ha b hb
    simp only [List.mem_singleton] at ha hb
    subst ha; subst hb
    simp [entLen]
  · intro e he pa hpa
    simp only [List.mem_singleton] at he
    subst he
    simp [entLen]
  · intro c hcv hq d hw
    simp only [qCells, List.map_cons, List.map_nil] at hq
    simp only [List.mem_singleton] at hcv
    exact absurd (by simp [hcv]) hq
  · intro t ht htv
    simp only [List.mem_singleton] at htv
    simp [qCells, htv]
  · intro c hcv hne
    simp only [List.mem_singleton] at hcv
    exact absurd hcv hne

/-- BFS completeness and optimality: with the invariant and enough fuel, a
reachable target makes the loop return a shortest walkable move sequence
to a target, shortest even among paths to any target. -/
theorem bfsAux_complete {s : BotState} {start : Cell} {targets : List Cell} :
    ∀ (fuel : Nat) (q : List Entry) (v : List Cell),
    BfsInv s start targets q v →
    q.length + (s.width * s.height + 2) ≤ fuel + v.length →
    (∃ g ∈ targets, ∃ pa, ValidPath s start pa g) →
    ∃ g ∈ targets, ValidPath s start (bfsAux s targets fuel q v) g ∧
      ∀ g' ∈ targets, ∀ pa, ValidPath s start pa g' →
        (bfsAux s targets fuel q v).length ≤ pa.length := by
  intro fuel
  induction fuel with
  | zero =>
    intro q v inv hfuel _
    exfalso
    have := bfs_vlen inv
    omega
  | succ fuel ih =>
    intro q v inv hfuel hreach
    rcases q with _ | ⟨⟨c, p⟩, rest⟩
    · exfalso
      obtain ⟨g, hg, pa, hpa⟩ := hreach
      by_cases hgv : g ∈ v
      · have := inv.targOpen g hg hgv
        simp [qCells] at this
      · obtain ⟨e, he, -⟩ := bfs_cover inv pa g hpa hgv
        simp at he
    · by_cases hct : c ∈ targets
      · have hres : bfsAux s targets (fuel + 1) ((c, p) :: rest) v = p := by
          simp [bfsAux, if_pos hct]
        rw [hres]
        refine ⟨c, hct, inv.validQ (c, p) (List.mem_cons_self _ _), ?_⟩
        intro g' hg' pa hpa
        have hsorted := inv.sortedQ
        rw [List.map_cons] at hsorted
        have hmin' := (List.pairwise_cons.mp hsorted).1
        have hminAll : ∀ e ∈ (c, p) :: rest, p.length ≤ entLen e := by
          intro e he
          rcases List.mem_cons.mp he with rfl | he
          · exact le_rfl
          · exact hmin' _ (List.mem_map_of_mem entLen he)
        by_cases hg'v : g' ∈ v
        · obtain ⟨e, he, hfst⟩ := List.mem_map.mp (inv.targOpen g' hg' hg'v)
          have h1 := inv.optQ e he pa ⟨hpa.1, hpa.2.trans hfst.symm⟩
          exact le_trans (hminAll e he) h1
        · obtain ⟨e, he, p1, p2, hsplit, hp2, -, hlen1⟩ :=
            bfs_cover inv pa g' hpa hg'v
          have h2 : p.length ≤ entLen e := hminAll e he
          have h3 : pa.length = p1.length + p2.length := by
            rw [hsplit, List.length_append]
          have h4 : 0 < p2.length := List.length_pos.mpr hp2
          omega
      · have hres : bfsAux s targets (fuel + 1) ((c, p) :: rest) v
            = bfsAux s targets fuel (dirList.foldl (expandDir s c p) (rest, v)).1
                (dirList.foldl (expandDir s c p) (rest, v)).2 := by
          simp [bfsAux, if_neg hct]
        obtain ⟨inv2, harith⟩ := bfs_step inv hct
        rw [hres]
        refine ih _ _ inv2 ?_ hreach
        simp only [List.length_cons] at hfuel
        omega

/-- BFS soundness: a non-empty result is a walkable move sequence from the
start to some target. -/
theorem bfsAux_sound {s : BotState} {start : Cell} {targets : List Cell} :
    ∀ (fuel : Nat) (q : List Entry) (v : List Cell),
    (∀ e ∈ q, ValidPath s start e.2 e.1) →
    bfsAux s targets fuel q v ≠ [] →
    ∃ g ∈ targets, ValidPath s start (bfsAux s targets fuel q v) g := by
  intro fuel
  induction fuel with
  | zero => intro q v _ h; simp [bfsAux] at h
  | succ fuel ih =>
    intro q v hvalid h
    rcases q with _ | ⟨⟨c, p⟩, rest⟩
    · simp [bfsAux] at h
    · by_cases hct : c ∈ targets
      · have hres : bfsAux s targets (fuel + 1) ((c, p) :: rest) v = p := by
          simp [bfsAux, if_pos hct]
        rw [hres] at h ⊢
        exact ⟨c, hct, hvalid (c, p) (List.mem_cons_self _ _)⟩
      · have hres : bfsAux s targets (fuel + 1) ((c, p) :: rest) v
            = bfsAux s targets fuel (dirList.foldl (expandDir s c p) (rest, v)).1
                (dirList.foldl (expandDir s c p) (rest, v)).2 := by
          simp [bfsAux, if_neg hct]
        rw [hres] at h ⊢
        refine ih _ _ ?_ h
        obtain ⟨ext, hv, hq, hprops, -, -⟩ := expand_spec s c p dirList rest v
        rw [hq]
        intro e he
        rcases List.mem_append.mp he with he | he
        · exact hvalid e (List.mem_cons_of_mem _ he)
        · obtain ⟨nd, hnd, rfl⟩ := List.mem_map.mp he
          obtain ⟨hstep, hwalk, -⟩ := hprops nd hnd
          show ValidPath s start (p ++ [nd.2]) nd.1
          rw [hstep] at hwalk ⊢
          exact ValidPath.snoc (hvalid (c, p) (List.mem_cons_self _ _)) hwalk

/-- `bfs` on a non-empty target list with a reachable target. -/
theorem bfs_complete {s : BotState} {start : Cell} {targets : List Cell}
    (hne : targets ≠ [])
    (hreach : ∃ g ∈ targets, ∃ pa, ValidPath s start pa g) :
    ∃ g ∈ targets, ValidPath s start (bfs s start targets) g ∧
      ∀ g' ∈ targets, ∀ pa, ValidPath s start pa g' →
        (bfs s start targets).length ≤ pa.length := by
  rw [bfs, if_neg hne]
  refine bfsAux_complete _ _ _ (bfs_init_inv s start targets) ?_ hreach
  simp only [List.length_cons, List.length_nil]
  omega

/-- `bfs` soundness at the wrapper level. -/
theorem bfs_sound {s : BotState} {start : Cell} {targets : List Cell}
    (h : bfs s start targets ≠ []) :
    ∃ g ∈ targets, ValidPath s start (bfs s start targets) g := by
  by_cases hne : targets = []
  · rw [bfs, if_pos hne] at h
    exact absurd rfl h
  · rw [bfs, if_neg hne] at h ⊢
    refine bfsAux_sound _ _ _ ?_ h
    intro e he
    simp only [List.mem_singleton] at he
    subst he
    exact ValidPath.nil s start

/-- `bfs` returns `[]` when the start is itself a target. -/
theorem bfs_start_mem {s : BotState} {start : Cell} {targets : List Cell}
    (h : start ∈ targets) : bfs s start targets = [] := by
  have hne : targets ≠ [] := by
    intro he
    rw [he] at h
    simp at h
  rw [bfs, if_neg hne]
  obtain ⟨n, hn⟩ : ∃ n, s.width * s.height + 2 = n + 1 :=
    ⟨s.width * s.height + 1, rfl⟩
  rw [hn]
  simp [bfsAux, if_pos h]

/-- `bfs` returns `[]` when no target is reachable. -/
theorem bfs_unreachable {s : BotState} {start : Cell} {targets : List Cell}
    (h : ¬ ∃ g ∈ targets, ∃ pa, ValidPath s start pa g) :
    bfs s start targets = [] := by
  by_contra hne
  obtain ⟨g, hg, hvp⟩ := bfs_sound hne
  exact h ⟨g, hg, _, hvp⟩

/-!
## Gem tracker lemmas
-/

theorem gemSightings_nil (s : BotState) : gemSightings s [] = s := rfl

theorem gemSightings_cons (s : BotState) (v : Cell × Int) (rest : List (Cell × Int)) :
    gemSightings s (v :: rest)
      = gemSightings
          { s with last_real_gem_tick := s.tick,
                   gems := seeGem s.tick s.gems v.1 v.2 } rest := rfl

theorem gemSightings_tick (s : BotState) (vis : List (Cell × Int)) :
    (gemSightings s vis).tick = s.tick := by
  induction vis generalizing s with
  | nil => rfl
  | cons v rest ih => rw [gemSightings_cons]; exact ih _

theorem gemSightings_collected (s : BotState) (vis : List (Cell × Int)) :
    (gemSightings s vis).collected_gems = s.collected_gems := by
  induction vis generalizing s with
  | nil => rfl
  | cons v rest ih => rw [gemSightings_cons]; exact ih _

theorem gemSightings_last {s : BotState} {vis : List (Cell × Int)}
    (hne : vis ≠ []) : (gemSightings s vis).last_real_gem_tick = s.tick := by
  induction vis generalizing s with
  | nil => exact absurd rfl hne
  | cons v rest ih =>
    rw [gemSightings_cons]
    rcases rest with _ | ⟨v2, rest2⟩
    · rfl
    · exact ih (by simp)

theorem lookupGem_eq_none_iff {gs : List (Cell × Gem)} {p : Cell} :
    lookupGem gs p = none ↔ p ∉ gs.map Prod.fst := by
  unfold lookupGem
  rw [Option.map_eq_none', List.find?_eq_none]
  constructor
  · intro h hmem
    obtain ⟨e, he, hfst⟩ := List.mem_map.mp hmem
    exact h e he (by simp [hfst])
  · intro h e he hbeq
    exact h (List.mem_map.mpr ⟨e, he, by simpa using hbeq⟩)

theorem find?_key_cons_true {l : List (Cell × Gem)} {e : Cell × Gem} {p : Cell}
    (h : (e.1 == p) = true) :
    (e :: l).find? (fun x => x.1 == p) = some e := by
  simp only [List.find?, h]

theorem find?_key_cons_false {l : List (Cell × Gem)} {e : Cell × Gem} {p : Cell}
    (h : (e.1 == p) = false) :
    (e :: l).find? (fun x => x.1 == p) = l.find? (fun x => x.1 == p) := by
  simp only [List.find?, h]

theorem mem_of_lookupGem {gs : List (Cell × Gem)} {p : Cell} {g : Gem}
    (h : lookupGem gs p = some g) : (p, g) ∈ gs := by
  unfold lookupGem at h
  cases hf : gs.find? (fun e => e.1 == p) with
  | none => rw [hf] at h; simp at h
  | some e =>
    rw [hf] at h
    simp only [Option.map_some', Option.some.injEq] at h
    have hmem := List.mem_of_find?_eq_some hf
    have hpred := List.find?_some hf
    simp only [beq_iff_eq] at hpred
    have : e = (p, g) := by
      obtain ⟨e1, e2⟩ := e
      simp only at hpred h
      rw [hpred, h]
    exact this ▸ hmem

/-- `find?` over a key-preserving map. -/
theorem find?_map_keypres {f : Cell × Gem → Cell × Gem}
    (hf : ∀ e, (f e).1 = e.1) (gs : List (Cell × Gem)) (p : Cell) :
    (gs.map f).find? (fun e => e.1 == p)
      = Option.map f (gs.find? (fun e => e.1 == p)) := by
  induction gs with
  | nil => rfl
  | cons e rest ih =>
    rw [List.map_cons]
    cases he : (e.1 == p) with
    | true =>
      rw [find?_key_cons_true (by rw [hf]; exact he), find?_key_cons_true he]
      rfl
    | false =>
      rw [find?_key_cons_false (by rw [hf]; exact he), find?_key_cons_false he]
      exact ih

theorem lookupGem_append_single_ne {gs : List (Cell × Gem)} {pos p : Cell}
    {g : Gem} (h : p ≠ pos) :
    lookupGem (gs ++ [(pos, g)]) p = lookupGem gs p := by
  induction gs with
  | nil =>
    unfold lookupGem
    rw [List.nil_append,
      find?_key_cons_false (by simp; exact fun he => absurd he.symm h)]
  | cons e rest ih =>
    unfold lookupGem
    rw [List.cons_append]
    cases he : (e.1 == p) with
    | true => rw [find?_key_cons_true he, find?_key_cons_true he]
    | false =>
      rw [find?_key_cons_false he, find?_key_cons_false he]
      exact ih

theorem lookupGem_seeGem_ne {t : Int} {gs : List (Cell × Gem)} {pos : Cell}
    {ttl : Int} {p : Cell} (h : p ≠ pos) :
    lookupGem (seeGem t gs pos ttl) p = lookupGem gs p := by
  unfold seeGem
  split
  · -- in-place refresh
    unfold lookupGem
    rw [find?_map_keypres (by intro e; split <;> rfl)]
    cases hf : gs.find? (fun e => e.1 == p) with
    | none => rfl
    | some e =>
      have hpred := List.find?_some hf
      simp only [beq_iff_eq] at hpred
      simp only [Option.map_some']
      rw [if_neg (hpred ▸ h)]
  · -- append of a fresh record
    exact lookupGem_append_single_ne h

theorem lookupGem_gemSightings_ne {s : BotState} {vis : List (Cell × Int)}
    {p : Cell} (h : p ∉ vis.map Prod.fst) :
    lookupGem (gemSightings s vis).gems p = lookupGem s.gems p := by
  induction vis generalizing s with
  | nil => rfl
  | cons v rest ih =>
    rw [gemSightings_cons]
    have h1 : p ∉ rest.map Prod.fst := fun hm => h (by simp [hm])
    have h2 : p ≠ v.1 := fun he => h (by simp [he])
    rw [ih h1]
    exact lookupGem_seeGem_ne h2

theorem keys_seeGem {t : Int} {gs : List (Cell × Gem)} {pos : Cell} {ttl : Int} :
    (seeGem t gs pos ttl).map Prod.fst
      = if (lookupGem gs pos).isSome then gs.map Prod.fst
        else gs.map Prod.fst ++ [pos] := by
  unfold seeGem
  split <;> rename_i hcase
  · rw [List.map_map]
    congr 1
    funext e
    simp only [Function.comp_apply]
    split <;> rfl
  · simp

theorem keysNodup_seeGem {t : Int} {gs : List (Cell × Gem)} {pos : Cell}
    {ttl : Int} (h : (gs.map Prod.fst).Nodup) :
    ((seeGem t gs pos ttl).map Prod.fst).Nodup := by
  rw [keys_seeGem]
  split <;> rename_i hcase
  · exact h
  · refine List.nodup_append.mpr ⟨h, by simp, ?_⟩
    intro a ha
    simp only [List.mem_singleton]
    intro hEq
    subst hEq
    have : lookupGem gs a = none := by
      cases hl : lookupGem gs a
      · rfl
      · rw [hl] at hcase; simp at hcase
    exact lookupGem_eq_none_iff.mp this ha

theorem keysNodup_gemSightings {s : BotState} {vis : List (Cell × Int)}
    (h : (s.gems.map Prod.fst).Nodup) :
    ((gemSightings s vis).gems.map Prod.fst).Nodup := by
  induction vis generalizing s with
  | nil => exact h
  | cons v rest ih =>
    rw [gemSightings_cons]
    exact ih (keysNodup_seeGem h)

theorem lookupGem_filter_none {gs : List (Cell × Gem)} {p : Cell} {g : Gem}
    {keep : Cell × Gem → Bool}
    (hnd : (gs.map Prod.fst).Nodup) (hg : lookupGem gs p = some g)
    (hkeep : keep (p, g) = false) :
    lookupGem (gs.filter keep) p = none := by
  induction gs with
  | nil => simp [lookupGem] at hg
  | cons e rest ih =>
    rw [List.map_cons, List.nodup_cons] at hnd
    cases hep : (e.1 == p) with
    | true =>
      have hp : e.1 = p := by simpa using hep
      have hg2 : e.2 = g := by
        unfold lookupGem at hg
        rw [find?_key_cons_true hep] at hg
        simpa using hg
      have hE : e = (p, g) := by
        obtain ⟨e1, e2⟩ := e
        simp only at hp hg2
        rw [hp, hg2]
      have hkeepE : keep e = false := hE ▸ hkeep
      rw [List.filter_cons_of_neg (by simp [hkeepE])]
      apply lookupGem_eq_none_iff.mpr
      intro hmem
      obtain ⟨e', he', hfst⟩ := List.mem_map.mp hmem
      exact (hp ▸ hnd.1) (List.mem_map.mpr ⟨e', List.mem_of_mem_filter he', hfst⟩)
    | false =>
      have hg' : lookupGem rest p = some g := by
        unfold lookupGem at hg ⊢
        rwa [find?_key_cons_false hep] at hg
      have hres := ih hnd.2 hg'
      by_cases hke : keep e = true
      · rw [List.filter_cons_of_pos hke]
        unfold lookupGem
        rw [find?_key_cons_false hep]
        exact hres
      · rw [List.filter_cons_of_neg (by simpa using hke)]
        exact hres

theorem updateGems_gems (s : BotState) (vis : List (Cell × Int)) :
    (updateGems s vis).gems
      = (gemSightings s vis).gems.filter
          (fun e => !staleB s.tick (vis.map Prod.fst) e) := by
  show (gemSightings s vis).gems.filter
      (fun e => !staleB (gemSightings s vis).tick (vis.map Prod.fst) e) = _
  rw [gemSightings_tick]

theorem updateGems_collected (s : BotState) (vis : List (Cell × Int)) :
    (updateGems s vis).collected_gems
      = s.collected_gems
        ∪ (staleKeys s.tick (gemSightings s vis).gems (vis.map Prod.fst)).toFinset := by
  show (gemSightings s vis).collected_gems
      ∪ (staleKeys (gemSightings s vis).tick (gemSightings s vis).gems
          (vis.map Prod.fst)).toFinset = _
  rw [gemSightings_tick, gemSightings_collected]

theorem updateGems_tick (s : BotState) (vis : List (Cell × Int)) :
    (updateGems s vis).tick = s.tick := gemSightings_tick s vis

theorem updateGems_last_of_ne {s : BotState} {vis : List (Cell × Int)}
    (h : vis ≠ []) : (updateGems s vis).last_real_gem_tick = s.tick :=
  gemSightings_last h

theorem updateGems_last_nil (s : BotState) :
    (updateGems s []).last_real_gem_tick = s.last_real_gem_tick := rfl

theorem keysNodup_updateGems {s : BotState} {vis : List (Cell × Int)}
    (h : (s.gems.map Prod.fst).Nodup) :
    ((updateGems s vis).gems.map Prod.fst).Nodup := by
  rw [updateGems_gems]
  exact ((List.filter_sublist _).map Prod.fst).nodup (keysNodup_gemSightings h)

theorem mem_staleKeys {t : Int} {gs : List (Cell × Gem)} {visPos : List Cell}
    {p : Cell} {g : Gem} (hg : lookupGem gs p = some g)
    (hstale : staleB t visPos (p, g) = true) : p ∈ staleKeys t gs visPos := by
  have hm := mem_of_lookupGem hg
  exact List.mem_map.mpr ⟨(p, g), List.mem_filter.mpr ⟨hm, hstale⟩, rfl⟩

theorem staleKeys_subset {t : Int} {gs : List (Cell × Gem)} {visPos : List Cell} :
    ∀ p ∈ staleKeys t gs visPos, p ∈ gs.map Prod.fst := by
  intro p hp
  obtain ⟨e, he, rfl⟩ := List.mem_map.mp hp
  exact List.mem_map.mpr ⟨e, List.mem_of_mem_filter he, rfl⟩

/-- A confirmed record absent this tick with `last_seen < tick - 1` is
dropped from tracking and its cell enters the collected set. -/
theorem updateGems_collects {s : BotState} {vis : List (Cell × Int)} {p : Cell}
    {g : Gem} (hnd : (s.gems.map Prod.fst).Nodup)
    (hg : lookupGem s.gems p = some g) (hest : g.estimated = false)
    (hlate : g.last_seen < s.tick - 1) (hvis : p ∉ vis.map Prod.fst) :
    lookupGem (updateGems s vis).gems p = none ∧
      p ∈ (updateGems s vis).collected_gems := by
  have hg1 : lookupGem (gemSightings s vis).gems p = some g :=
    (lookupGem_gemSightings_ne hvis).trans hg
  have hnd1 := @keysNodup_gemSightings s vis hnd
  have hstale : staleB s.tick (vis.map Prod.fst) (p, g) = true := by
    simp [staleB, hest, hvis, hlate]
  constructor
  · rw [updateGems_gems]
    exact lookupGem_filter_none hnd1 hg1 (by simp [hstale])
  · rw [updateGems_collected]
    exact Finset.mem_union_right _ (List.mem_toFinset.mpr (mem_staleKeys hg1 hstale))

/-- A cell no longer tracked is never collected again: it stays untracked
and does not appear among the stale keys of any later `update_gems` call in
which it is still not visible. -/
theorem updateGems_no_recollect {s : BotState} {vis : List (Cell × Int)}
    {p : Cell} (habs : lookupGem s.gems p = none) (hvis : p ∉ vis.map Prod.fst) :
    lookupGem (updateGems s vis).gems p = none ∧
      p ∉ staleKeys s.tick (gemSightings s vis).gems (vis.map Prod.fst) := by
  have hg1 : lookupGem (gemSightings s vis).gems p = none :=
    (lookupGem_gemSightings_ne hvis).trans habs
  have hnmem : p ∉ (gemSightings s vis).gems.map Prod.fst :=
    lookupGem_eq_none_iff.mp hg1
  constructor
  · rw [updateGems_gems]
    apply lookupGem_eq_none_iff.mpr
    intro hmem
    apply hnmem
    obtain ⟨e, he, rfl⟩ := List.mem_map.mp hmem
    exact List.mem_map.mpr ⟨e, List.mem_of_mem_filter he, rfl⟩
  · intro hmem
    exact hnmem (staleKeys_subset _ hmem)

/-!
## The confirmed-gems invariant (C10)
-/

/-- Every tracked record is confirmed: `estimated = False` and its `ttl`
is present. -/
def GemInv (s : BotState) : Prop :=
  ∀ e ∈ s.gems, e.2.estimated = false ∧ e.2.ttl ≠ none

instance (s : BotState) : Decidable (GemInv s) := by
  unfold GemInv
  infer_instance

theorem gemInv_seeGem {t : Int} {gs : List (Cell × Gem)} {pos : Cell} {ttl : Int}
    (h : ∀ e ∈ gs, e.2.estimated = false ∧ e.2.ttl ≠ none) :
    ∀ e ∈ seeGem t gs pos ttl, e.2.estimated = false ∧ e.2.ttl ≠ none := by
  unfold seeGem
  split
  · intro e he
    obtain ⟨e0, he0, rfl⟩ := List.mem_map.mp he
    split
    · exact ⟨rfl, by simp⟩
    · exact h e0 he0
  · intro e he
    rcases List.mem_append.mp he with he | he
    · exact h e he
    · simp only [List.mem_singleton] at he
      subst he
      exact ⟨rfl, by simp [mkGemTracker]⟩

theorem gemInv_gemSightings {s : BotState} {vis : List (Cell × Int)}
    (h : GemInv s) : GemInv (gemSightings s vis) := by
  induction vis generalizing s with
  | nil => exact h
  | cons v rest ih =>
    rw [gemSightings_cons]
    exact ih (gemInv_seeGem h)

theorem gemInv_updateGems {s : BotState} {vis : List (Cell × Int)}
    (h : GemInv s) : GemInv (updateGems s vis) := by
  intro e he
  rw [updateGems_gems] at he
  exact gemInv_gemSightings h e (List.mem_of_mem_filter he)

theorem decideMove_state (s : BotState) (sig : ℚ) :
    (decideMove s sig).2 = histUpd s sig := by
  unfold decideMove
  dsimp only
  (repeat' split) <;> rfl

theorem updateMap_fields {s s' : BotState} {walls floors : List Cell}
    (h : updateMap s walls floors = some s') :
    s'.gems = s.gems ∧ s'.tick = s.tick ∧ s'.collected_gems = s.collected_gems ∧
      s'.last_real_gem_tick = s.last_real_gem_tick ∧ s'.x = s.x ∧ s'.y = s.y ∧
      s'.width = s.width ∧ s'.height = s.height := by
  unfold updateMap at h
  cases hm : updateMapGrid s.map walls floors with
  | none => rw [hm] at h; simp at h
  | some m =>
    rw [hm] at h
    simp only [Option.map_some', Option.some.injEq] at h
    subst h
    exact ⟨rfl, rfl, rfl, rfl, rfl, rfl, rfl, rfl⟩

/-- `score_move` with the estimated-gem branches cut out, the form it
takes when every tracked gem is confirmed. -/
def scoreMoveConfirmed (s : BotState) (d : Dir) (_sig : ℚ) : ℚ :=
  let n := stepCell (s.x, s.y) d
  s.gems.foldl
    (fun acc e =>
      if manhattan e.1 n < manhattan e.1 (s.x, s.y) then acc + 12 else acc) 0
  + (if cellAt s n.1 n.2 = .unknown then 3 else 0)
  + (if n ∈ s.frontier then 1.5 else 0)
  + (if s.position_history.getLast? = some n then -2 else 0)

theorem scoreMove_eq_confirmed {s : BotState} (hinv : GemInv s) (d : Dir)
    (sig : ℚ) : scoreMove s d sig = scoreMoveConfirmed s d sig := by
  unfold scoreMove scoreMoveConfirmed
  have : ∀ (gs : List (Cell × Gem)),
      (∀ e ∈ gs, e.2.estimated = false ∧ e.2.ttl ≠ none) → ∀ (acc : ℚ),
      gs.foldl
        (fun acc e =>
          if !e.2.estimated || decide ((1 : ℚ)/2 < e.2.confidence) then
            if manhattan e.1 (stepCell (s.x, s.y) d)
                < manhattan e.1 (s.x, s.y) then
              acc + (if !e.2.estimated then 12 else e.2.confidence * 6)
            else acc
          else acc) acc
      = gs.foldl
          (fun acc e =>
            if manhattan e.1 (stepCell (s.x, s.y) d)
                < manhattan e.1 (s.x, s.y) then
              acc + 12
            else acc) acc := by
    intro gs hgs
    induction gs with
    | nil => intro acc; rfl
    | cons e rest ih =>
      intro acc
      have he := hgs e (List.mem_cons_self _ _)
      simp only [List.foldl_cons, he.1]
      rw [ih (fun e2 he2 => hgs e2 (List.mem_cons_of_mem _ he2))]
      simp
  simp only [this s.gems hinv 0]

/-!
## Map update lemmas
-/

theorem get?_set_self {α : Type} {l : List α} {i : Nat} (h : i < l.length)
    (a : α) : (l.set i a).get? i = some a := by
  induction l generalizing i with
  | nil => simp at h
  | cons x t ih =>
    cases i with
    | zero => rfl
    | succ j =>
      show (t.set j a).get? j = some a
      exact ih (by simpa [Nat.succ_lt_succ_iff] using h)

theorem get?_set_ne {α : Type} {l : List α} {i j : Nat} (h : i ≠ j) (a : α) :
    (l.set i a).get? j = l.get? j := by
  induction l generalizing i j with
  | nil => rfl
  | cons x t ih =>
    cases i with
    | zero =>
      cases j with
      | zero => exact absurd rfl h
      | succ k => rfl
    | succ i2 =>
      cases j with
      | zero => rfl
      | succ k =>
        show (t.set i2 a).get? k = t.get? k
        exact ih fun he => h (by rw [he])

/-- Reading a raw grid, as `cellAt` does through the state. -/
def gridAt (m : List (List MapCell)) (x y : Int) : MapCell :=
  (((m.get? x.toNat).getD []).get? y.toNat).getD .unknown

theorem cellAt_gridAt (s : BotState) (x y : Int) :
    cellAt s x y = gridAt s.map x y := rfl

/-- The map has exactly `width` rows of exactly `height` cells. -/
def GridWF (m : List (List MapCell)) (w h : Nat) : Prop :=
  m.length = w ∧ ∀ row ∈ m, row.length = h

instance (m : List (List MapCell)) (w h : Nat) : Decidable (GridWF m w h) := by
  unfold GridWF
  exact @instDecidableAnd _ _ _ (List.decidableBAll _ m)

/-- A cell within `[0,w) × [0,h)`. -/
def Inted (w h : Nat) (c : Cell) : Prop :=
  0 ≤ c.1 ∧ c.1 < (w : Int) ∧ 0 ≤ c.2 ∧ c.2 < (h : Int)

instance (w h : Nat) (c : Cell) : Decidable (Inted w h c) := by
  unfold Inted
  infer_instance

theorem pyIdx_inb {n : Nat} {i : Int} (h0 : 0 ≤ i) (h1 : i < (n : Int)) :
    pyIdx n i = some i.toNat := by
  unfold pyIdx
  rw [if_pos ⟨h0, h1⟩]

theorem pySetCell_inb {m : List (List MapCell)} {w h : Nat} {c : Cell}
    {v : MapCell} (hwf : GridWF m w h) (hc : Inted w h c) :
    ∃ m', pySetCell m c v = some m' ∧ GridWF m' w h ∧
      ∀ x y : Int, Inted w h (x, y) →
        gridAt m' x y = if (x, y) = c then v else gridAt m x y := by
  obtain ⟨hlen, hrows⟩ := hwf
  obtain ⟨hx0, hx1, hy0, hy1⟩ := hc
  have hxlt : c.1.toNat < m.length := by omega
  have hget : m.get? c.1.toNat = some (m.get ⟨c.1.toNat, hxlt⟩) :=
    List.get?_eq_get hxlt
  set row := m.get ⟨c.1.toNat, hxlt⟩ with hrowdef
  have hrowlen : row.length = h := hrows row (m.get_mem _ _)
  have hylt : c.2.toNat < row.length := by omega
  refine ⟨m.set c.1.toNat (row.set c.2.toNat v), ?_, ⟨?_, ?_⟩, ?_⟩
  · simp only [pySetCell, pyIdx_inb hx0 (show c.1 < (m.length : Int) by omega),
      hget, pyIdx_inb hy0 (show c.2 < (row.length : Int) by rw [hrowlen]; omega)]
  · rw [List.length_set, hlen]
  · intro r hr
    rcases List.mem_or_eq_of_mem_set hr with hr | hr
    · exact hrows r hr
    · rw [hr, List.length_set, hrowlen]
  · intro x y hxy
    obtain ⟨hbx0, hbx1, hby0, hby1⟩ := hxy
    simp only at hbx0 hbx1 hby0 hby1
    by_cases hxi : x = c.1
    · subst hxi
      unfold gridAt
      rw [get?_set_self hxlt]
      simp only [Option.getD_some]
      rw [hget]
      simp only [Option.getD_some]
      by_cases hyi : y = c.2
      · subst hyi
        rw [get?_set_self hylt]
        rw [if_pos (by rfl)]
        rfl
      · rw [get?_set_ne (fun he => hyi (by omega)) v]
        rw [if_neg (fun he => hyi (congrArg Prod.snd he))]
    · unfold gridAt
      rw [get?_set_ne (fun he => hxi (by omega)) _]
      rw [if_neg (fun he => hxi (congrArg Prod.fst he))]

theorem setList_inb {w h : Nat} {v : MapCell} :
    ∀ (cs : List Cell) (m : List (List MapCell)), GridWF m w h →
    (∀ c ∈ cs, Inted w h c) →
    ∃ m', cs.foldlM (fun mm c => pySetCell mm c v) m = some m' ∧
      GridWF m' w h ∧
      ∀ x y : Int, Inted w h (x, y) →
        gridAt m' x y = if (x, y) ∈ cs then v else gridAt m x y := by
  intro cs
  induction cs with
  | nil =>
    intro m hwf _
    exact ⟨m, rfl, hwf, by simp⟩
  | cons c cs ih =>
    intro m hwf hin
    obtain ⟨m1, hm1, hwf1, hread1⟩ :=
      @pySetCell_inb m w h c v hwf (hin c (List.mem_cons_self _ _))
    obtain ⟨m2, hm2, hwf2, hread2⟩ :=
      ih m1 hwf1 (fun c2 hc2 => hin c2 (List.mem_cons_of_mem _ hc2))
    refine ⟨m2, ?_, hwf2, ?_⟩
    · rw [List.foldlM_cons, hm1]
      exact hm2
    · intro x y hxy
      rw [hread2 x y hxy, hread1 x y hxy]
      by_cases h1 : (x, y) ∈ cs
      · simp [h1]
      · by_cases h2 : (x, y) = c <;> simp [h1, h2]

theorem updateMapGrid_inb {m : List (List MapCell)} {walls floors : List Cell}
    {w h : Nat} (hwf : GridWF m w h)
    (hwalls : ∀ c ∈ walls, Inted w h c) (hfloors : ∀ c ∈ floors, Inted w h c) :
    ∃ m', updateMapGrid m walls floors = some m' ∧ GridWF m' w h ∧
      ∀ x y : Int, Inted w h (x, y) →
        gridAt m' x y =
          if (x, y) ∈ floors then .floor
          else if (x, y) ∈ walls then .wall
          else gridAt m x y := by
  obtain ⟨m1, hm1, hwf1, hread1⟩ := setList_inb walls m hwf hwalls
  obtain ⟨m2, hm2, hwf2, hread2⟩ := setList_inb floors m1 hwf1 hfloors
  refine ⟨m2, ?_, hwf2, ?_⟩
  · unfold updateMapGrid
    rw [hm1]
    simpa using hm2
  · intro x y hxy
    rw [hread2 x y hxy, hread1 x y hxy]

/-- `update_map` on in-bounds observations: floors are applied after walls,
so a cell listed in both ends up `FLOOR`. -/
theorem updateMap_inb {s : BotState} {walls floors : List Cell}
    (hwf : GridWF s.map s.width s.height)
    (hwalls : ∀ c ∈ walls, Inted s.width s.height c)
    (hfloors : ∀ c ∈ floors, Inted s.width s.height c) :
    ∃ s', updateMap s walls floors = some s' ∧
      s'.width = s.width ∧ s'.height = s.height ∧
      GridWF s'.map s.width s.height ∧
      ∀ x y : Int, Inted s.width s.height (x, y) →
        cellAt s' x y =
          if (x, y) ∈ floors then .floor
          else if (x, y) ∈ walls then .wall
          else cellAt s x y := by
  obtain ⟨m', hm', hwf', hread⟩ := updateMapGrid_inb hwf hwalls hfloors
  refine ⟨{ { s with map := m' } with
      frontier := computeFrontier { s with map := m' } }, ?_, rfl, rfl, hwf', ?_⟩
  · unfold updateMap
    rw [hm']
    rfl
  · intro x y hxy
    rw [cellAt_gridAt, cellAt_gridAt]
    exact hread x y hxy

theorem initializeMapGrid_wf (w h : Nat) : GridWF (initializeMapGrid w h) w h := by
  refine ⟨by simp [initializeMapGrid], ?_⟩
  intro row hrow
  rw [List.eq_of_mem_replicate hrow]
  simp

/-!
## First-match machinery

`findSome?`, Python's `max(..., key=...)` and the decision cascade all pick
the first list element with some property; `FirstWith` is that property
made explicit, with a uniqueness lemma giving determinism.
-/

/-- `a` is the first element of `l` satisfying `P`. -/
def FirstWith {α : Type} (P : α → Prop) (l : List α) (a : α) : Prop :=
  ∃ l1 l2, l = l1 ++ a :: l2 ∧ P a ∧ ∀ b ∈ l1, ¬ P b

theorem first_decomp_unique {α : Type} {P : α → Prop} :
    ∀ (l1 l1' l2 l2' : List α) (a a' : α),
    l1 ++ a :: l2 = l1' ++ a' :: l2' → P a → P a' →
    (∀ b ∈ l1, ¬ P b) → (∀ b ∈ l1', ¬ P b) → a = a' := by
  intro l1
  induction l1 with
  | nil =>
    intro l1' l2 l2' a a' heq hPa hPa' h1 h2
    cases l1' with
    | nil =>
      rw [List.nil_append, List.nil_append] at heq
      exact (List.cons_eq_cons.mp heq).1
    | cons b t =>
      rw [List.nil_append, List.cons_append] at heq
      obtain ⟨hb, ht⟩ := List.cons_eq_cons.mp heq
      rw [hb] at hPa
      exact absurd hPa (h2 b (List.mem_cons_self _ _))
  | cons b t ih =>
    intro l1' l2 l2' a a' heq hPa hPa' h1 h2
    cases l1' with
    | nil =>
      rw [List.cons_append, List.nil_append] at heq
      obtain ⟨hb, ht⟩ := List.cons_eq_cons.mp heq
      rw [← hb] at hPa'
      exact absurd hPa' (h1 b (List.mem_cons_self _ _))
    | cons b' t' =>
      rw [List.cons_append, List.cons_append] at heq
      obtain ⟨hb, ht⟩ := List.cons_eq_cons.mp heq
      exact ih t' l2 l2' a a' ht hPa hPa'
        (fun x hx => h1 x (List.mem_cons_of_mem _ hx))
        (fun x hx => h2 x (List.mem_cons_of_mem _ hx))

theorem firstWith_unique {α : Type} {P : α → Prop} {l : List α} {a a' : α}
    (h : FirstWith P l a) (h' : FirstWith P l a') : a = a' := by
  obtain ⟨l1, l2, rfl, hPa, h1⟩ := h
  obtain ⟨l1', l2', heq, hPa', h2⟩ := h'
  exact first_decomp_unique l1 l1' l2 l2' a a' heq hPa hPa' h1 h2

theorem FirstWith.mem {α : Type} {P : α → Prop} {l : List α} {a : α}
    (h : FirstWith P l a) : a ∈ l ∧ P a := by
  obtain ⟨l1, l2, rfl, hPa, -⟩ := h
  exact ⟨by simp, hPa⟩

theorem FirstWith.congr {α : Type} {P Q : α → Prop} {l : List α} {a : α}
    (hpq : ∀ x ∈ l, (P x ↔ Q x)) (h : FirstWith P l a) : FirstWith Q l a := by
  obtain ⟨l1, l2, rfl, hPa, h1⟩ := h
  refine ⟨l1, l2, rfl, (hpq a (by simp)).mp hPa, fun b hb => fun hQ =>
    h1 b hb ((hpq b (by simp [hb])).mpr hQ)⟩

theorem findSome?_firstWith {α β : Type} {f : α → Option β} {l : List α}
    {b : β} (h : l.findSome? f = some b) :
    ∃ a, FirstWith (fun x => (f x).isSome = true) l a ∧ f a = some b := by
  induction l with
  | nil => simp at h
  | cons x t ih =>
    rw [List.findSome?_cons] at h
    cases hfx : f x with
    | some v =>
      rw [hfx] at h
      exact ⟨x, ⟨[], t, rfl, by simp [hfx], by simp⟩, hfx.trans h⟩
    | none =>
      rw [hfx] at h
      obtain ⟨a, ⟨l1, l2, heq, hPa, h1⟩, hfa⟩ := ih h
      refine ⟨a, ⟨x :: l1, l2, by rw [List.cons_append, heq], hPa, ?_⟩, hfa⟩
      intro b2 hb2
      rcases List.mem_cons.mp hb2 with rfl | hb2
      · simp [hfx]
      · exact h1 b2 hb2

theorem findSome?_of_firstWith {α β : Type} {f : α → Option β} {l : List α}
    {a : α} (h : FirstWith (fun x => (f x).isSome = true) l a) :
    l.findSome? f = f a := by
  obtain ⟨l1, l2, rfl, hPa, h1⟩ := h
  revert h1
  induction l1 with
  | nil =>
    intro h1
    rw [List.nil_append, List.findSome?_cons]
    cases hfa : f a with
    | some v => rfl
    | none => rw [hfa] at hPa; simp at hPa
  | cons x t ih =>
    intro h1
    rw [List.cons_append, List.findSome?_cons]
    have hfx : f x = none := by
      cases hfx2 : f x with
      | none => rfl
      | some v => exact absurd (by simp [hfx2]) (h1 x (List.mem_cons_self _ _))
    rw [hfx]
    exact ih (fun b2 hb2 => h1 b2 (List.mem_cons_of_mem _ hb2))

theorem findSome?_eq_none_of {α β : Type} {f : α → Option β} {l : List α}
    (h : ∀ x ∈ l, f x = none) : l.findSome? f = none := by
  induction l with
  | nil => rfl
  | cons x t ih =>
    rw [List.findSome?_cons, h x (List.mem_cons_self _ _)]
    exact ih (fun x2 hx2 => h x2 (List.mem_cons_of_mem _ hx2))

/-- `m` is what Python's `max(l, key)` returns: the first element of `l`
attaining the maximal key. -/
def IsPyMax {α : Type} (key : α → ℚ) (l : List α) (m : α) : Prop :=
  FirstWith (fun x => ∀ b ∈ l, key b ≤ key x) l m

theorem isPyMax_unique {α : Type} {key : α → ℚ} {l : List α} {m m' : α}
    (h : IsPyMax key l m) (h' : IsPyMax key l m') : m = m' :=
  firstWith_unique h h'

theorem pyMax1_cons (key : α → ℚ) (a m : α) (t : List α) :
    pyMax1 key a (m :: t) = pyMax1 key (if key a < key m then m else a) t := by
  unfold pyMax1
  rw [List.foldl_cons]

/-- `pyMax1` computes exactly the Python `max` semantics. -/
theorem pyMax1_isPyMax {α : Type} (key : α → ℚ) :
    ∀ (rest : List α) (a : α), IsPyMax key (a :: rest) (pyMax1 key a rest) := by
  intro rest
  induction rest with
  | nil =>
    intro a
    refine ⟨[], [], rfl, ?_, by simp⟩
    intro b hb
    simp only [pyMax1, List.foldl_nil]
    rcases List.mem_cons.mp hb with rfl | hb
    · exact le_rfl
    · simp at hb
  | cons m t ih =>
    intro a
    rw [pyMax1_cons]
    have hsub : ∀ x, x ∈ a :: t → x ∈ a :: m :: t := by
      intro x hx
      rcases List.mem_cons.mp hx with rfl | hx
      · exact List.mem_cons_self _ _
      · exact List.mem_cons_of_mem _ (List.mem_cons_of_mem _ hx)
    by_cases ham : key a < key m
    · rw [if_pos ham]
      obtain ⟨l1, l2, heq, hP, hfirst⟩ := ih m
      refine ⟨a :: l1, l2, by rw [List.cons_append, ← heq], ?_, ?_⟩
      · intro b hb
        rcases List.mem_cons.mp hb with rfl | hb
        · exact le_trans (le_of_lt ham) (hP m (List.mem_cons_self _ _))
        · exact hP b hb
      · intro b hb
        rcases List.mem_cons.mp hb with rfl | hb
        · intro hall
          exact absurd (hall m (List.mem_cons_of_mem _ (List.mem_cons_self _ _)))
            (not_le.mpr ham)
        · intro hall
          exact hfirst b hb
            (fun x hx => hall x (List.mem_cons_of_mem _ hx))
    · rw [if_neg ham]
      have ham' : key m ≤ key a := not_lt.mp ham
      obtain ⟨l1, l2, heq, hP, hfirst⟩ := ih a
      cases l1 with
      | nil =>
        rw [List.nil_append] at heq
        obtain ⟨h1, h2⟩ := List.cons_eq_cons.mp heq
        refine ⟨[], m :: t, ?_, ?_, by simp⟩
        · rw [List.nil_append, ← h1]
        · rw [← h1]
          intro b hb
          rcases List.mem_cons.mp hb with rfl | hb
          · exact le_rfl
          rcases List.mem_cons.mp hb with rfl | hb
          · exact ham'
          · have := hP b (List.mem_cons_of_mem _ hb)
            rwa [← h1] at this
      | cons x l1t =>
        rw [List.cons_append] at heq
        obtain ⟨h1, h2⟩ := List.cons_eq_cons.mp heq
        refine ⟨a :: m :: l1t, l2, by rw [List.cons_append, List.cons_append, ← h2],
          ?_, ?_⟩
        · intro b hb
          rcases List.mem_cons.mp hb with hba | hb
          · rw [hba]
            exact hP a (List.mem_cons_self _ _)
          rcases List.mem_cons.mp hb with hbm | hb
          · rw [hbm]
            exact le_trans ham' (hP a (List.mem_cons_self _ _))
          · exact hP b (List.mem_cons_of_mem _ hb)
        · have hnota : ¬ ∀ y ∈ a :: t, key y ≤ key a := by
            have := hfirst x (List.mem_cons_self _ _)
            rwa [← h1] at this
          intro b hb
          rcases List.mem_cons.mp hb with hba | hb
          · intro hall
            apply hnota
            intro y hy
            have h3 := hall y (hsub y hy)
            rwa [hba] at h3
          rcases List.mem_cons.mp hb with hbm | hb
          · intro hall
            apply hnota
            intro y hy
            have h3 := hall y (hsub y hy)
            rw [hbm] at h3
            exact le_trans h3 ham'
          · intro hall
            exact hfirst b (List.mem_cons_of_mem _ hb)
              (fun y hy => hall y (hsub y hy))

/-!
## Decision cascade characterizations
-/

theorem dirTo_sound {v : Cell} {d : Dir} (h : dirTo v = some d) : d.delta = v := by
  have hpred := List.find?_some h
  simpa using hpred

theorem dirTo_dist1 {a b : Cell} (h : manhattan a b = 1) :
    ∃ d, dirTo (a.1 - b.1, a.2 - b.2) = some d ∧ stepCell b d = a := by
  obtain ⟨a1, a2⟩ := a
  obtain ⟨b1, b2⟩ := b
  unfold manhattan at h
  simp only at h ⊢
  have hcases : (a1 - b1 = 0 ∧ a2 - b2 = -1) ∨ (a1 - b1 = 0 ∧ a2 - b2 = 1)
      ∨ (a1 - b1 = 1 ∧ a2 - b2 = 0) ∨ (a1 - b1 = -1 ∧ a2 - b2 = 0) := by
    omega
  rcases hcases with ⟨h1, h2⟩ | ⟨h1, h2⟩ | ⟨h1, h2⟩ | ⟨h1, h2⟩
  · refine ⟨.N, ?_, ?_⟩
    · rw [show ((a1 - b1, a2 - b2) : Cell) = ((0 : Int), (-1 : Int)) from by
        rw [Prod.mk.injEq]; exact ⟨h1, h2⟩]
      rfl
    · simp only [stepCell, Dir.delta, Prod.mk.injEq]
      omega
  · refine ⟨.S, ?_, ?_⟩
    · rw [show ((a1 - b1, a2 - b2) : Cell) = ((0 : Int), (1 : Int)) from by
        rw [Prod.mk.injEq]; exact ⟨h1, h2⟩]
      rfl
    · simp only [stepCell, Dir.delta, Prod.mk.injEq]
      omega
  · refine ⟨.E, ?_, ?_⟩
    · rw [show ((a1 - b1, a2 - b2) : Cell) = ((1 : Int), (0 : Int)) from by
        rw [Prod.mk.injEq]; exact ⟨h1, h2⟩]
      rfl
    · simp only [stepCell, Dir.delta, Prod.mk.injEq]
      omega
  · refine ⟨.W, ?_, ?_⟩
    · rw [show ((a1 - b1, a2 - b2) : Cell) = ((-1 : Int), (0 : Int)) from by
        rw [Prod.mk.injEq]; exact ⟨h1, h2⟩]
      rfl
    · simp only [stepCell, Dir.delta, Prod.mk.injEq]
      omega

/-- The confirmed-adjacent predicate of the first cascade step. -/
def ConfAdj (s : BotState) (e : Cell × Gem) : Prop :=
  ¬e.2.estimated ∧ manhattan e.1 (s.x, s.y) = 1

instance (s : BotState) (e : Cell × Gem) : Decidable (ConfAdj s e) := by
  unfold ConfAdj
  infer_instance

theorem adjacentGemMove_inner_isSome (s : BotState) (e : Cell × Gem) :
    ((if ¬e.2.estimated ∧ manhattan e.1 (s.x, s.y) = 1 then
        dirTo (e.1.1 - s.x, e.1.2 - s.y)
      else none).isSome = true) ↔ ConfAdj s e := by
  unfold ConfAdj
  split <;> rename_i hcond
  · obtain ⟨d, hd, -⟩ := @dirTo_dist1 e.1 (s.x, s.y) hcond.2
    simp only at hd
    simp [hd, hcond]
  · exact iff_of_false (by simp) hcond

theorem adjacentGemMove_eq_none {s : BotState}
    (h : ∀ e ∈ s.gems, ¬ ConfAdj s e) : adjacentGemMove s = none := by
  unfold adjacentGemMove
  apply findSome?_eq_none_of
  intro e he
  rw [if_neg (show ¬(¬e.2.estimated = true ∧ manhattan e.1 (s.x, s.y) = 1) from
    h e he)]

theorem adjacentGemMove_none_iff {s : BotState} :
    adjacentGemMove s = none ↔ ∀ e ∈ s.gems, ¬ ConfAdj s e := by
  constructor
  · intro h e he hcond
    cases hv : adjacentGemMove s with
    | some d => rw [h] at hv; exact Option.noConfusion hv
    | none =>
      unfold adjacentGemMove at h
      have := List.findSome?_eq_none_iff.mp h e he
      rw [if_pos ⟨hcond.1, hcond.2⟩] at this
      obtain ⟨d, hd, -⟩ := @dirTo_dist1 e.1 (s.x, s.y) hcond.2
      simp only at hd
      rw [hd] at this
      exact Option.noConfusion this
  · exact adjacentGemMove_eq_none

theorem adjacentGemMove_some_spec {s : BotState} {d : Dir}
    (h : adjacentGemMove s = some d) :
    ∃ e, FirstWith (ConfAdj s) s.gems e ∧ stepCell (s.x, s.y) d = e.1 := by
  obtain ⟨e, hFW, hfe⟩ := findSome?_firstWith h
  have hFW2 := FirstWith.congr (fun x _ => adjacentGemMove_inner_isSome s x) hFW
  have hcond : ConfAdj s e := hFW2.mem.2
  rw [if_pos ⟨hcond.1, hcond.2⟩] at hfe
  have hdelta := dirTo_sound hfe
  refine ⟨e, hFW2, ?_⟩
  unfold stepCell
  rw [hdelta, Prod.ext_iff]
  constructor <;> simp

theorem adjacentGemMove_of_firstWith {s : BotState} {e : Cell × Gem} {d : Dir}
    (hFW : FirstWith (ConfAdj s) s.gems e)
    (hd : dirTo (e.1.1 - s.x, e.1.2 - s.y) = some d) :
    adjacentGemMove s = some d := by
  unfold adjacentGemMove
  rw [findSome?_of_firstWith
    (FirstWith.congr (fun x _ => (adjacentGemMove_inner_isSome s x).symm) hFW)]
  rw [if_pos ⟨hFW.mem.2.1, hFW.mem.2.2⟩]
  exact hd

/-- The predicate the sorted-gem-targeting loop tests on each key. -/
def GemChoicePred (s : BotState) (p : Cell) : Prop :=
  (∃ g, lookupGem s.gems p = some g ∧ g.estimated = false) ∧
    bfs s (s.x, s.y) [p] ≠ []

theorem gemTargetProbe_isSome_iff {s : BotState} {p : Cell} :
    ((gemTargetProbe s p).isSome = true) ↔ GemChoicePred s p := by
  unfold gemTargetProbe GemChoicePred
  cases hl : lookupGem s.gems p with
  | none => simp
  | some g =>
    dsimp only
    cases hest : g.estimated with
    | false =>
      rw [if_pos (by simp [hest])]
      cases hb : bfs s (s.x, s.y) [p] with
      | nil => simp [hest]
      | cons d tl => simp [hest]
    | true =>
      rw [if_neg (by simp [hest])]
      simp [hest]

theorem gemTargetProbe_eq {s : BotState} {p : Cell} {g : Gem} {d : Dir}
    {tl : List Dir} (hl : lookupGem s.gems p = some g)
    (hest : g.estimated = false) (hb : bfs s (s.x, s.y) [p] = d :: tl) :
    gemTargetProbe s p = some d := by
  unfold gemTargetProbe
  rw [hl]
  dsimp only
  rw [if_pos (by simp [hest]), hb]

theorem gemTargetProbe_none {s : BotState} {p : Cell}
    (h : ¬ GemChoicePred s p) : gemTargetProbe s p = none := by
  cases hv : gemTargetProbe s p with
  | none => rfl
  | some d =>
    exact absurd (gemTargetProbe_isSome_iff.mp (by simp [hv])) h

theorem gemTargetMove_some_spec {s : BotState} {d : Dir}
    (h : gemTargetMove s = some d) :
    ∃ p, FirstWith (GemChoicePred s) (sortedGemKeys s) p ∧
      ∃ tl, bfs s (s.x, s.y) [p] = d :: tl := by
  obtain ⟨p, hFW, hfp⟩ := findSome?_firstWith h
  refine ⟨p, FirstWith.congr (fun x _ => gemTargetProbe_isSome_iff) hFW, ?_⟩
  unfold gemTargetProbe at hfp
  cases hl : lookupGem s.gems p with
  | none => rw [hl] at hfp; exact Option.noConfusion hfp
  | some g =>
    rw [hl] at hfp
    dsimp only at hfp
    cases hest : g.estimated with
    | false =>
      rw [if_pos (by simp [hest])] at hfp
      cases hb : bfs s (s.x, s.y) [p] with
      | nil => rw [hb] at hfp; exact Option.noConfusion hfp
      | cons d2 tl =>
        rw [hb] at hfp
        dsimp only at hfp
        refine ⟨tl, ?_⟩
        rw [Option.some_inj.mp hfp]
    | true =>
      rw [if_neg (by simp [hest])] at hfp
      exact Option.noConfusion hfp

theorem gemTargetMove_of_firstWith {s : BotState} {p : Cell} {d : Dir}
    {tl : List Dir} (hFW : FirstWith (GemChoicePred s) (sortedGemKeys s) p)
    (hb : bfs s (s.x, s.y) [p] = d :: tl) :
    gemTargetMove s = some d := by
  unfold gemTargetMove
  rw [findSome?_of_firstWith
    (FirstWith.congr (fun x _ => gemTargetProbe_isSome_iff.symm) hFW)]
  obtain ⟨⟨g, hl, hest⟩, -⟩ := hFW.mem.2
  exact gemTargetProbe_eq hl hest hb

theorem gemTargetMove_none {s : BotState}
    (h : ∀ p ∈ sortedGemKeys s, ¬ GemChoicePred s p) :
    gemTargetMove s = none :=
  findSome?_eq_none_of (fun p hp => gemTargetProbe_none (h p hp))

theorem gemTargetMove_none_iff {s : BotState} :
    gemTargetMove s = none ↔ ∀ p ∈ sortedGemKeys s, ¬ GemChoicePred s p := by
  constructor
  · intro h p hp hpred
    have := List.findSome?_eq_none_iff.mp h p hp
    obtain ⟨⟨g, hl, hest⟩, hne⟩ := hpred
    rcases hb : bfs s (s.x, s.y) [p] with _ | ⟨d, tl⟩
    · exact hne hb
    · rw [gemTargetProbe_eq hl hest hb] at this
      exact Option.noConfusion this
  · exact gemTargetMove_none

/-!
## Branch-by-branch evaluation of `decide_move`
-/

theorem decideMove_eq_adj {s : BotState} {sig : ℚ} {d : Dir}
    (h : adjacentGemMove (histUpd s sig) = some d) :
    decideMove s sig = (d.toMove, histUpd s sig) := by
  unfold decideMove
  dsimp only
  rw [h]

theorem decideMove_eq_hunt {s : BotState} {sig : ℚ} {m : Dir} {ms : List Dir}
    (h0 : adjacentGemMove (histUpd s sig) = none)
    (h1 : inSignalHuntMode (histUpd s sig) = true)
    (h2 : walkMoves (histUpd s sig) = m :: ms) :
    decideMove s sig
      = ((pyMax1 (fun d => scoreMoveSignalOnly (histUpd s sig) d sig) m ms).toMove,
         histUpd s sig) := by
  unfold decideMove
  dsimp only
  rw [h0, h1, h2]
  simp

theorem decideMove_eq_target {s : BotState} {sig : ℚ} {d : Dir}
    (h0 : adjacentGemMove (histUpd s sig) = none)
    (h1 : inSignalHuntMode (histUpd s sig) = false
      ∨ walkMoves (histUpd s sig) = [])
    (h2 : gemTargetMove (histUpd s sig) = some d) :
    decideMove s sig = (d.toMove, histUpd s sig) := by
  unfold decideMove
  dsimp only
  rcases h1 with h1 | h1
  · rw [h0, h1, h2]
    simp
  · cases hh : inSignalHuntMode (histUpd s sig) <;> rw [h0, h2] <;>
      simp [h1]

theorem decideMove_eq_frontier {s : BotState} {sig : ℚ} {d : Dir} {tl : List Dir}
    (h0 : adjacentGemMove (histUpd s sig) = none)
    (h1 : inSignalHuntMode (histUpd s sig) = false
      ∨ walkMoves (histUpd s sig) = [])
    (h2 : gemTargetMove (histUpd s sig) = none)
    (h3 : findPathToFrontier (histUpd s sig) = d :: tl) :
    decideMove s sig = (d.toMove, histUpd s sig) := by
  unfold decideMove
  dsimp only
  rcases h1 with h1 | h1
  · rw [h0, h1, h2, h3]
    simp
  · cases hh : inSignalHuntMode (histUpd s sig) <;> rw [h0, h2, h3] <;>
      simp [h1]

theorem decideMove_eq_fallback {s : BotState} {sig : ℚ} {m : Dir} {ms : List Dir}
    (h0 : adjacentGemMove (histUpd s sig) = none)
    (h1 : inSignalHuntMode (histUpd s sig) = false
      ∨ walkMoves (histUpd s sig) = [])
    (h2 : gemTargetMove (histUpd s sig) = none)
    (h3 : findPathToFrontier (histUpd s sig) = [])
    (h4 : walkMoves (histUpd s sig) = m :: ms) :
    decideMove s sig
      = ((pyMax1 (fun d => scoreMove (histUpd s sig) d sig) m ms).toMove,
         histUpd s sig) := by
  unfold decideMove
  dsimp only
  rcases h1 with h1 | h1
  · rw [h0, h1, h2, h3, h4]
    simp
  · rw [h1] at h4
    exact List.noConfusion h4

theorem decideMove_eq_wait {s : BotState} {sig : ℚ}
    (h0 : adjacentGemMove (histUpd s sig) = none)
    (h2 : gemTargetMove (histUpd s sig) = none)
    (h3 : findPathToFrontier (histUpd s sig) = [])
    (h4 : walkMoves (histUpd s sig) = []) :
    decideMove s sig = (.WAIT, histUpd s sig) := by
  unfold decideMove
  dsimp only
  cases hh : inSignalHuntMode (histUpd s sig) <;> rw [h0, h2, h3, h4] <;>
    simp

/-!
## Relational semantics of `decide_move` (C9)

Each constructor captures one branch of the cascade together with explicit
negations of every higher-priority guard; determinism then follows from
uniqueness of first matches and first maxima, via agreement with the
functional embedding.
-/

inductive DecideRel (s : BotState) (sig : ℚ) : Move → BotState → Prop where
  | adj (e : Cell × Gem) (d : Dir)
      (hFW : FirstWith (ConfAdj (histUpd s sig)) (histUpd s sig).gems e)
      (hd : dirTo (e.1.1 - (histUpd s sig).x, e.1.2 - (histUpd s sig).y)
        = some d) :
      DecideRel s sig d.toMove (histUpd s sig)
  | hunt (d : Dir)
      (hno : ∀ e ∈ (histUpd s sig).gems, ¬ ConfAdj (histUpd s sig) e)
      (hh : inSignalHuntMode (histUpd s sig) = true)
      (hne : walkMoves (histUpd s sig) ≠ [])
      (hmax : IsPyMax (fun d0 => scoreMoveSignalOnly (histUpd s sig) d0 sig)
        (walkMoves (histUpd s sig)) d) :
      DecideRel s sig d.toMove (histUpd s sig)
  | target (p : Cell) (d : Dir) (tl : List Dir)
      (hno : ∀ e ∈ (histUpd s sig).gems, ¬ ConfAdj (histUpd s sig) e)
      (hg : inSignalHuntMode (histUpd s sig) = false
        ∨ walkMoves (histUpd s sig) = [])
      (hFW : FirstWith (GemChoicePred (histUpd s sig))
        (sortedGemKeys (histUpd s sig)) p)
      (hb : bfs (histUpd s sig) ((histUpd s sig).x, (histUpd s sig).y) [p]
        = d :: tl) :
      DecideRel s sig d.toMove (histUpd s sig)
  | frontier (d : Dir) (tl : List Dir)
      (hno : ∀ e ∈ (histUpd s sig).gems, ¬ ConfAdj (histUpd s sig) e)
      (hg : inSignalHuntMode (histUpd s sig) = false
        ∨ walkMoves (histUpd s sig) = [])
      (hnt : ∀ p ∈ sortedGemKeys (histUpd s sig),
        ¬ GemChoicePred (histUpd s sig) p)
      (hf : findPathToFrontier (histUpd s sig) = d :: tl) :
      DecideRel s sig d.toMove (histUpd s sig)
  | fallback (d : Dir)
      (hno : ∀ e ∈ (histUpd s sig).gems, ¬ ConfAdj (histUpd s sig) e)
      (hg : inSignalHuntMode (histUpd s sig) = false
        ∨ walkMoves (histUpd s sig) = [])
      (hnt : ∀ p ∈ sortedGemKeys (histUpd s sig),
        ¬ GemChoicePred (histUpd s sig) p)
      (hf : findPathToFrontier (histUpd s sig) = [])
      (hne : walkMoves (histUpd s sig) ≠ [])
      (hmax : IsPyMax (fun d0 => scoreMove (histUpd s sig) d0 sig)
        (walkMoves (histUpd s sig)) d) :
      DecideRel s sig d.toMove (histUpd s sig)
  | wait
      (hno : ∀ e ∈ (histUpd s sig).gems, ¬ ConfAdj (histUpd s sig) e)
      (hnt : ∀ p ∈ sortedGemKeys (histUpd s sig),
        ¬ GemChoicePred (histUpd s sig) p)
      (hf : findPathToFrontier (histUpd s sig) = [])
      (hw : walkMoves (histUpd s sig) = []) :
      DecideRel s sig .WAIT (histUpd s sig)

/-- Every derivable decision agrees with the functional embedding: the
relation is deterministic because `decide_move` computes it. -/
theorem decideRel_fun {s : BotState} {sig : ℚ} {m : Move} {t : BotState}
    (h : DecideRel s sig m t) : decideMove s sig = (m, t) := by
  cases h with
  | adj e d hFW hd => exact decideMove_eq_adj (adjacentGemMove_of_firstWith hFW hd)
  | hunt d hno hh hne hmax =>
    rcases hwm : walkMoves (histUpd s sig) with _ | ⟨m0, ms⟩
    · exact absurd hwm hne
    · rw [decideMove_eq_hunt (adjacentGemMove_eq_none hno) hh hwm]
      rw [hwm] at hmax
      rw [isPyMax_unique hmax
        (pyMax1_isPyMax (fun d0 => scoreMoveSignalOnly (histUpd s sig) d0 sig) ms m0)]
  | target p d tl hno hg hFW hb =>
    exact decideMove_eq_target (adjacentGemMove_eq_none hno) hg
      (gemTargetMove_of_firstWith hFW hb)
  | frontier d tl hno hg hnt hf =>
    exact decideMove_eq_frontier (adjacentGemMove_eq_none hno) hg
      (gemTargetMove_none hnt) hf
  | fallback d hno hg hnt hf hne hmax =>
    rcases hwm : walkMoves (histUpd s sig) with _ | ⟨m0, ms⟩
    · exact absurd hwm hne
    · rw [decideMove_eq_fallback (adjacentGemMove_eq_none hno) hg
        (gemTargetMove_none hnt) hf hwm]
      rw [hwm] at hmax
      rw [isPyMax_unique hmax
        (pyMax1_isPyMax (fun d0 => scoreMove (histUpd s sig) d0 sig) ms m0)]
  | wait hno hnt hf hw =>
    exact decideMove_eq_wait (adjacentGemMove_eq_none hno)
      (gemTargetMove_none hnt) hf hw

theorem decideRel_det {s : BotState} {sig : ℚ} {m1 m2 : Move}
    {t1 t2 : BotState} (h1 : DecideRel s sig m1 t1)
    (h2 : DecideRel s sig m2 t2) : m1 = m2 ∧ t1 = t2 := by
  have e1 := decideRel_fun h1
  have e2 := decideRel_fun h2
  rw [e1] at e2
  exact ⟨congrArg Prod.fst e2, congrArg Prod.snd e2⟩

/-- One whole game: the observation feed is consumed tick by tick and each
tick contributes one move.  The map update is functional; the decision is
taken through the relation. -/
inductive RunRel : BotState → List Obs → List Move → Prop where
  | nil (s : BotState) : RunRel s [] []
  | step (s : BotState) (o : Obs) (os : List Obs) (m : Move) (ms : List Move)
      (s1 s2 : BotState)
      (hmap : updateMap { s with tick := o.tick, x := o.bot.1, y := o.bot.2 }
        o.wall o.floor = some s1)
      (hdec : DecideRel (updateGems s1 o.visible_gems) o.signal_level m s2)
      (hrest : RunRel s2 os ms) :
      RunRel s (o :: os) (m :: ms)

theorem runRel_det {obs : List Obs} :
    ∀ {s : BotState} {t1 t2 : List Move},
    RunRel s obs t1 → RunRel s obs t2 → t1 = t2 := by
  induction obs with
  | nil =>
    intro s t1 t2 h1 h2
    cases h1
    cases h2
    rfl
  | cons o os ih =>
    intro s t1 t2 h1 h2
    cases h1 with
    | step _ _ _ m1 ms1 s1 s2 hmap1 hdec1 hrest1 =>
      cases h2 with
      | step _ _ _ m2 ms2 s1' s2' hmap2 hdec2 hrest2 =>
        rw [hmap1] at hmap2
        have hs1 : s1 = s1' := Option.some_inj.mp hmap2
        subst hs1
        obtain ⟨hm, hs2⟩ := decideRel_det hdec1 hdec2
        subst hs2
        rw [hm, ih hrest1 hrest2]

/-!
## Spec-side definitions

The spec's §4.2 `score` has no counterpart in the source; it is embedded
here from the spec's words only so that the visible-gem-targeting claim can
be compared against the code's actual behavior.
-/

/-- The gem score claimed by the spec (`0.6 * exp(-manhattan/vis_radius) +
0.4 * (ttl/ttl_reference)`); the source computes no such score. -/
noncomputable def specGemScore (s : BotState) (ttlRef : ℝ) (src gemPos : Cell)
    (ttl : Int) : ℝ :=
  0.6 * Real.exp (-(manhattan gemPos src : ℝ) / ((s.vis_radius : ℝ)))
    + 0.4 * ((ttl : ℝ) / ttlRef)

/-!
## Concrete states used by witnesses and counterexamples
-/

/-- A confirmed gem record as `update_gems` creates it at tick 0. -/
def confGem (ttl : Int) : Gem :=
  { ttl := some ttl, confidence := 1, last_seen := 0, estimated := false }

/-- A fully explored all-floor grid with the agent at `(x, y)`. -/
def mkFloorState (w h : Nat) (x y : Int) (gs : List (Cell × Gem)) : BotState :=
  { width := w, height := h, signal_radius := 10, vis_radius := 5,
    map := List.replicate w (List.replicate h .floor), x := x, y := y,
    tick := 0, gems := gs, collected_gems := ∅, frontier := [],
    position_history := [], last_real_gem_tick := 0,
    signal_gradient_memory := [] }

def wBfs : BotState := mkFloorState 3 3 0 0 []

def wTiny : BotState := mkFloorState 1 1 0 0 []

def wAdj : BotState := mkFloorState 8 8 5 5 [((5, 6), confGem 10)]

def wCollect : BotState :=
  { mkFloorState 6 6 2 2 [((2, 2), confGem 9)] with tick := 2 }

def wUnknown3 : BotState :=
  { mkFloorState 3 3 0 0 [] with map := initializeMapGrid 3 3 }

def wHunt150 : BotState := { mkFloorState 3 3 0 0 [] with tick := 150 }

def wHunt149 : BotState := { mkFloorState 3 3 0 0 [] with tick := 149 }

def wTwoGems : BotState :=
  mkFloorState 6 6 2 2 [((0, 0), confGem 10), ((4, 2), confGem 10)]

def wRun : BotState := initState 1 1 10 5

def oRun : Obs :=
  { tick := 0, bot := (0, 0), wall := [], floor := [], visible_gems := [],
    signal_level := 0 }

/-!
## The claims
-/

/-- Claim C1: for every fixed map and goal cell `g` reachable from `start`
over walkable cells, `bfs(start, {g})` returns a move sequence stepping
only on walkable cells, ending exactly at `g`, whose length equals the
minimum hop distance from `start` to `g`. -/
theorem claim_C1 (s : BotState) (start g : Cell)
    (h : ∃ pa, ValidPath s start pa g) :
    ValidPath s start (bfs s start [g]) g ∧
      ∀ q, ValidPath s start q g → (bfs s start [g]).length ≤ q.length := by
  obtain ⟨g', hg', hvalid, hmin⟩ :=
    @bfs_complete s start [g] (by simp) ⟨g, by simp, h⟩
  rw [List.mem_singleton] at hg'
  subst hg'
  exact ⟨hvalid, fun q hq => hmin _ (by simp) q hq⟩

/-- Witness for C1 on a 3×3 all-floor map: the goal `(0,1)` is one step
south of the start. -/
theorem claim_C1_witness :
    ValidPath wBfs (0, 0) (bfs wBfs (0, 0) [(0, 1)]) (0, 1) ∧
      ∀ q, ValidPath wBfs (0, 0) q (0, 1) →
        (bfs wBfs (0, 0) [(0, 1)]).length ≤ q.length :=
  claim_C1 wBfs (0, 0) (0, 1) ⟨[Dir.S], by decide⟩

/-- Claim C8: `bfs` returns the empty move sequence (and cannot raise: the
embedding is a total function) both when the start is itself a target and
when no target is reachable over walkable cells. -/
theorem claim_C8 (s : BotState) (start : Cell) (targets : List Cell) :
    (start ∈ targets → bfs s start targets = []) ∧
    ((¬ ∃ g ∈ targets, ∃ pa, ValidPath s start pa g) →
      bfs s start targets = []) :=
  ⟨fun h => bfs_start_mem h, fun h => bfs_unreachable h⟩

/-- Witness for C8: on a 1×1 grid, the start is its own target, and cell
`(5,5)` is unreachable (walkable endpoints must be in bounds). -/
theorem claim_C8_witness :
    bfs wTiny (0, 0) [(0, 0)] = [] ∧ bfs wTiny (0, 0) [(5, 5)] = [] := by
  refine ⟨(claim_C8 wTiny (0, 0) [(0, 0)]).1 (by decide),
    (claim_C8 wTiny (0, 0) [(5, 5)]).2 ?_⟩
  rintro ⟨gg, hg, pa, hv⟩
  rw [List.mem_singleton] at hg
  subst hg
  rcases pa with _ | ⟨d, rest⟩
  · exact absurd hv.2 (by decide)
  · have hw := ValidPath.endpoint_walkable hv (by simp)
    revert hw
    decide

/-- Claim C2: whenever a confirmed (non-estimated) tracked gem sits at
Manhattan distance exactly 1 from the agent, `decide_move` steps onto an
adjacent confirmed gem's cell, regardless of frontier, signal or hunt-mode
state. -/
theorem claim_C2 (s : BotState) (sig : ℚ)
    (h : ∃ e ∈ s.gems, e.2.estimated = false ∧ manhattan e.1 (s.x, s.y) = 1) :
    ∃ e ∈ s.gems, e.2.estimated = false ∧ manhattan e.1 (s.x, s.y) = 1 ∧
      ∃ d : Dir, (decideMove s sig).1 = d.toMove ∧
        stepCell (s.x, s.y) d = e.1 := by
  obtain ⟨e0, he0, hest0, hdist0⟩ := h
  cases hadj : adjacentGemMove (histUpd s sig) with
  | none =>
    exfalso
    have hne := adjacentGemMove_none_iff.mp hadj e0 he0
    exact hne ⟨by simp [hest0], hdist0⟩
  | some d =>
    obtain ⟨e, hFW, hstep⟩ := adjacentGemMove_some_spec hadj
    have hmem := hFW.mem
    refine ⟨e, hmem.1, by simpa using hmem.2.1, hmem.2.2, d, ?_, hstep⟩
    rw [decideMove_eq_adj hadj]

/-- Witness for C2, the spec's scenario: agent at `(5,5)`, confirmed gem at
`(5,6)`; the engine returns South. -/
theorem claim_C2_witness :
    (∃ e ∈ wAdj.gems, e.2.estimated = false ∧
        manhattan e.1 (wAdj.x, wAdj.y) = 1 ∧
        ∃ d : Dir, (decideMove wAdj 0).1 = d.toMove ∧
          stepCell (wAdj.x, wAdj.y) d = e.1) ∧
    (decideMove wAdj 0).1 = Move.S :=
  ⟨claim_C2 wAdj 0 (by decide), by decide⟩

/-- Claim C3: a confirmed tracked gem at `p` with `last_seen = T`, absent
when `update_gems` runs at tick `T + 2`, is removed from tracking and `p`
is added to the collected set; the collected set being a set, `p` enters it
exactly once, and feeding the same absence again neither re-tracks `p` nor
re-collects it (the extra collected keys of a later call never contain
`p`). -/
theorem claim_C3 (s : BotState) (vis : List (Cell × Int)) (p : Cell) (g : Gem)
    (hnd : (s.gems.map Prod.fst).Nodup)
    (hg : lookupGem s.gems p = some g) (hest : g.estimated = false)
    (htick : s.tick = g.last_seen + 2) (hvis : p ∉ vis.map Prod.fst) :
    lookupGem (updateGems s vis).gems p = none ∧
      p ∈ (updateGems s vis).collected_gems ∧
      ∀ (t2 : Int) (vis2 : List (Cell × Int)), p ∉ vis2.map Prod.fst →
        lookupGem
            (updateGems { updateGems s vis with tick := t2 } vis2).gems p
          = none ∧
        p ∈ (updateGems { updateGems s vis with tick := t2 } vis2).collected_gems ∧
        ∃ extra : Finset Cell, p ∉ extra ∧
          (updateGems { updateGems s vis with tick := t2 } vis2).collected_gems
            = (updateGems s vis).collected_gems ∪ extra := by
  have hlate : g.last_seen < s.tick - 1 := by omega
  obtain ⟨h1, h2⟩ := updateGems_collects hnd hg hest hlate hvis
  refine ⟨h1, h2, ?_⟩
  intro t2 vis2 hvis2
  have habs : lookupGem ({ updateGems s vis with tick := t2 } : BotState).gems p
      = none := h1
  obtain ⟨h3, h4⟩ := updateGems_no_recollect habs hvis2
  refine ⟨h3, ?_, ?_⟩
  · rw [updateGems_collected]
    exact Finset.mem_union_left _ h2
  · refine ⟨(staleKeys ({ updateGems s vis with tick := t2 } : BotState).tick
      (gemSightings { updateGems s vis with tick := t2 } vis2).gems
      (vis2.map Prod.fst)).toFinset, ?_, ?_⟩
    · simpa using h4
    · rw [updateGems_collected]

/-- Witness for C3: a gem at `(2,2)` last seen at tick 0, absent at tick 2,
is collected exactly once. -/
theorem claim_C3_witness :
    lookupGem (updateGems wCollect []).gems (2, 2) = none ∧
      (2, 2) ∈ (updateGems wCollect []).collected_gems ∧
      ∀ (t2 : Int) (vis2 : List (Cell × Int)), (2, 2) ∉ vis2.map Prod.fst →
        lookupGem
            (updateGems { updateGems wCollect [] with tick := t2 } vis2).gems
            (2, 2) = none ∧
        (2, 2) ∈ (updateGems { updateGems wCollect [] with tick := t2 }
          vis2).collected_gems ∧
        ∃ extra : Finset Cell, (2, 2) ∉ extra ∧
          (updateGems { updateGems wCollect [] with tick := t2 }
            vis2).collected_gems
            = (updateGems wCollect []).collected_gems ∪ extra :=
  claim_C3 wCollect [] (2, 2) (confGem 9) (by decide) (by decide) (by decide)
    (by decide) (by decide)

/-- Counterexample to C4 as stated: `update_map` writes walls first and
floors second, so a cell listed in both `walls` and `floors` is classified
FLOOR after the call, not WALL. -/
theorem claim_C4_counterexample :
    (updateMap wUnknown3 [(1, 1)] [(1, 1)]).map (fun s' => cellAt s' 1 1)
      = some MapCell.floor := by decide

/-- Claim C4 (amended): on in-bounds observations, a cell listed in
`floors` ends FLOOR (so Floor, not Wall, takes precedence when both lists
name the same cell, because floors are written after walls); a cell listed
only in `walls` ends WALL; an unlisted cell keeps its classification.  A
Wall therefore persists only as long as no later `floors` list names its
cell. -/
theorem claim_C4_amended (s : BotState) (walls floors : List Cell) (c : Cell)
    (hwf : GridWF s.map s.width s.height)
    (hwalls : ∀ c2 ∈ walls, Inted s.width s.height c2)
    (hfloors : ∀ c2 ∈ floors, Inted s.width s.height c2)
    (hc : Inted s.width s.height c) :
    ∃ s', updateMap s walls floors = some s' ∧
      (c ∈ floors → cellAt s' c.1 c.2 = .floor) ∧
      (c ∈ walls → c ∉ floors → cellAt s' c.1 c.2 = .wall) ∧
      (c ∉ walls → c ∉ floors → cellAt s' c.1 c.2 = cellAt s c.1 c.2) := by
  obtain ⟨s', hs', -, -, -, hread⟩ := updateMap_inb hwf hwalls hfloors
  have hreadc := hread c.1 c.2 hc
  refine ⟨s', hs', ?_, ?_, ?_⟩
  · intro hcf
    rw [hreadc, if_pos hcf]
  · intro hcw hcf
    rw [hreadc, if_neg hcf, if_pos hcw]
  · intro hcw hcf
    rw [hreadc, if_neg hcf, if_neg hcw]

/-- Witness for the amended C4 on a 3×3 all-unknown map: `(1,1)` is in
both lists and ends FLOOR; `(0,0)` is only in `walls` and ends WALL. -/
theorem claim_C4_amended_witness :
    (∃ s', updateMap wUnknown3 [(0, 0), (1, 1)] [(1, 1)] = some s' ∧
      ((1, 1) ∈ ([(1, 1)] : List Cell) → cellAt s' 1 1 = .floor) ∧
      ((1, 1) ∈ ([(0, 0), (1, 1)] : List Cell) →
        (1, 1) ∉ ([(1, 1)] : List Cell) → cellAt s' 1 1 = .wall) ∧
      ((1, 1) ∉ ([(0, 0), (1, 1)] : List Cell) →
        (1, 1) ∉ ([(1, 1)] : List Cell) →
        cellAt s' 1 1 = cellAt wUnknown3 1 1)) ∧
    (∃ s', updateMap wUnknown3 [(0, 0), (1, 1)] [(1, 1)] = some s' ∧
      ((0, 0) ∈ ([(1, 1)] : List Cell) → cellAt s' 0 0 = .floor) ∧
      ((0, 0) ∈ ([(0, 0), (1, 1)] : List Cell) →
        (0, 0) ∉ ([(1, 1)] : List Cell) → cellAt s' 0 0 = .wall) ∧
      ((0, 0) ∉ ([(0, 0), (1, 1)] : List Cell) →
        (0, 0) ∉ ([(1, 1)] : List Cell) →
        cellAt s' 0 0 = cellAt wUnknown3 0 0)) :=
  ⟨claim_C4_amended wUnknown3 [(0, 0), (1, 1)] [(1, 1)] (1, 1) (by decide)
      (by decide) (by decide) (by decide),
    claim_C4_amended wUnknown3 [(0, 0), (1, 1)] [(1, 1)] (0, 0) (by decide)
      (by decide) (by decide) (by decide)⟩

/-- Claim C5: signal-hunt mode is active exactly when at least 150 ticks
have elapsed since the last confirmed sighting; `update_gems` stamps
`last_real_gem_tick` with the current tick exactly when some gem is
visible. -/
theorem claim_C5 (s : BotState) :
    (inSignalHuntMode s = true ↔ 150 ≤ s.tick - s.last_real_gem_tick) ∧
    (∀ vis : List (Cell × Int), vis ≠ [] →
      (updateGems s vis).last_real_gem_tick = s.tick) ∧
    (updateGems s []).last_real_gem_tick = s.last_real_gem_tick := by
  refine ⟨?_, fun vis hne => updateGems_last_of_ne hne, rfl⟩
  unfold inSignalHuntMode
  exact decide_eq_true_iff

/-- Witness for C5: with the last confirmed sighting at tick 0, hunt mode
is active at tick 150 and inactive at tick 149; a sighting at tick 150
stamps the tick. -/
theorem claim_C5_witness :
    inSignalHuntMode wHunt150 = true ∧ inSignalHuntMode wHunt149 = false ∧
      (updateGems wHunt150 [((1, 1), 5)]).last_real_gem_tick = 150 := by
  refine ⟨(claim_C5 wHunt150).1.mpr (by decide), ?_, ?_⟩
  · cases hb : inSignalHuntMode wHunt149
    · rfl
    · exact absurd ((claim_C5 wHunt149).1.mp hb) (by decide)
  · exact (claim_C5 wHunt150).2.1 [((1, 1), 5)] (by simp)

/-- Counterexample to C6 as stated: with confirmed gems at `(0,0)` and
`(4,2)`, agent at `(2,2)`, equal ttls, the spec's score prefers the nearer
gem `(4,2)` (exp is increasing), whose BFS paths all start East; but the
engine computes no score and instead serves the lexicographically first
key `(0,0)`, moving North. -/
theorem claim_C6_counterexample :
    specGemScore wTwoGems 100 (2, 2) (0, 0) 10
        < specGemScore wTwoGems 100 (2, 2) (4, 2) 10 ∧
      bfs wTwoGems (2, 2) [(4, 2)] = [Dir.E, Dir.E] ∧
      (decideMove wTwoGems 0).1 = Move.N ∧ (decideMove wTwoGems 0).1 ≠ Move.E := by
  refine ⟨?_, by decide, by decide, by decide⟩
  unfold specGemScore
  rw [show manhattan (0, 0) (2, 2) = 4 from by decide,
    show manhattan (4, 2) (2, 2) = 2 from by decide,
    show wTwoGems.vis_radius = (5 : ℚ) from rfl]
  push_cast
  have hexp : Real.exp (-(4 : ℝ) / 5) < Real.exp (-(2 : ℝ) / 5) :=
    Real.exp_lt_exp.mpr (by norm_num)
  nlinarith [hexp]

/-- Claim C6 (amended): when no confirmed gem is adjacent and hunt mode is
off, the engine walks the gem keys in ascending lexicographic order and
returns the first move of the unweighted BFS path to the first confirmed
key with a non-empty path; no exp/ttl score is computed anywhere. -/
theorem claim_C6 (s : BotState) (sig : ℚ) (p : Cell) (d : Dir) (tl : List Dir)
    (hno : ∀ e ∈ (histUpd s sig).gems, ¬ ConfAdj (histUpd s sig) e)
    (hg : inSignalHuntMode (histUpd s sig) = false)
    (hFW : FirstWith (GemChoicePred (histUpd s sig))
      (sortedGemKeys (histUpd s sig)) p)
    (hb : bfs (histUpd s sig) ((histUpd s sig).x, (histUpd s sig).y) [p]
      = d :: tl) :
    (decideMove s sig).1 = d.toMove := by
  rw [decideMove_eq_target (adjacentGemMove_eq_none hno) (Or.inl hg)
    (gemTargetMove_of_firstWith hFW hb)]

/-- Witness for the amended C6 at the two-gem state: `(0,0)` is the first
sorted confirmed key with a path, and the engine moves North along its BFS
path. -/
theorem claim_C6_witness : (decideMove wTwoGems 0).1 = Dir.N.toMove :=
  claim_C6 wTwoGems 0 (0, 0) Dir.N [Dir.N, Dir.W, Dir.W] (by decide) (by decide)
    ⟨[], [(4, 2)], by decide, ⟨⟨confGem 10, by decide, rfl⟩, by decide⟩,
      by simp⟩
    (by decide)

/-- Claim C7 (the code lacks the specified defensive check): `update_map`
applies out-of-bounds coordinates through Python list indexing instead of
rejecting them.  A negative coordinate silently reclassifies a real cell
(`walls=[(-1,0)]` on a 3×3 map turns cell `(2,0)` into WALL), and a
too-large coordinate raises `IndexError` (modelled by `none`). -/
theorem claim_C7 :
    (updateMap wUnknown3 [(-1, 0)] []).map (fun s' => cellAt s' 2 0)
        = some MapCell.wall ∧
      updateMap wUnknown3 [(3, 0)] [] = none :=
  ⟨by decide, by decide⟩

/-- Claim C9: the decision engine is deterministic — two runs of the
relational per-tick semantics on the identical observation sequence from
the same initial state produce identical move traces. -/
theorem claim_C9 (s : BotState) (obs : List Obs) (t1 t2 : List Move)
    (h1 : RunRel s obs t1) (h2 : RunRel s obs t2) : t1 = t2 :=
  runRel_det h1 h2

/-- Witness for C9: a one-tick run on a fresh 1×1 world emits WAIT, and two
such runs agree. -/
theorem claim_C9_witness :
    RunRel wRun [oRun] [Move.WAIT] ∧ ([Move.WAIT] : List Move) = [Move.WAIT] := by
  have hnt : ∀ p ∈ sortedGemKeys (histUpd (updateGems wRun []) 0),
      ¬ GemChoicePred (histUpd (updateGems wRun []) 0) p := by
    intro p hp
    rw [show sortedGemKeys (histUpd (updateGems wRun []) 0) = [] from by decide]
      at hp
    exact absurd hp (List.not_mem_nil p)
  have hdec : DecideRel (updateGems wRun []) 0 Move.WAIT
      (histUpd (updateGems wRun []) 0) :=
    DecideRel.wait (by decide) hnt (by decide) (by decide)
  have hrun : RunRel wRun [oRun] [Move.WAIT] :=
    RunRel.step wRun oRun [] Move.WAIT [] wRun
      (histUpd (updateGems wRun []) 0) (by decide) hdec
      (RunRel.nil _)
  exact ⟨hrun, claim_C9 wRun [oRun] [Move.WAIT] [Move.WAIT] hrun hrun⟩

/-- Claim C10: every tracked gem record is confirmed (`estimated = False`,
`ttl` present): the invariant holds initially, is preserved by every
operation (`update_gems` only creates or refreshes records from sightings
carrying a ttl, `update_map` and `decide_move` never touch the gem table),
and consequently `score_move` never exercises its estimated-gem branch. -/
theorem claim_C10 (s : BotState) (hinv : GemInv s) :
    (∀ vis, GemInv (updateGems s vis)) ∧
    (∀ w f s', updateMap s w f = some s' → GemInv s') ∧
    (∀ sig, (decideMove s sig).2.gems = s.gems) ∧
    (∀ d sig, scoreMove s d sig = scoreMoveConfirmed s d sig) ∧
    (∀ w h sr vr, GemInv (initState w h sr vr)) := by
  refine ⟨fun vis => gemInv_updateGems hinv, ?_, ?_,
    fun d sig => scoreMove_eq_confirmed hinv d sig, ?_⟩
  · intro w f s' hmap e he
    rw [(updateMap_fields hmap).1] at he
    exact hinv e he
  · intro sig
    rw [decideMove_state]
    rfl
  · intro w h sr vr e he
    simp [initState] at he

/-- Witness for C10 at the two-confirmed-gems state. -/
theorem claim_C10_witness :
    (∀ vis, GemInv (updateGems wTwoGems vis)) ∧
    (∀ w f s', updateMap wTwoGems w f = some s' → GemInv s') ∧
    (∀ sig, (decideMove wTwoGems sig).2.gems = wTwoGems.gems) ∧
    (∀ d sig, scoreMove wTwoGems d sig = scoreMoveConfirmed wTwoGems d sig) ∧
    (∀ w h sr vr, GemInv (initState w h sr vr)) :=
  claim_C10 wTwoGems (by decide)

end HiddenGems
